import Mathlib

/-!
Verification of the benchmark-comparison tooling (`compare_mermaid_renderers.py`
and `stage_spotcheck.py`): a shallow embedding of its text parsing, duration
normalization, filter expansion, set reconciliation and ratio aggregation,
together with theorems settling the specification claims.

Strings are modelled as `List Char` / `String`; Python floats appearing in
purely finite arithmetic are modelled as `ℚ`, while code whose behaviour
depends on `inf`/`nan` is modelled with an explicit `PyFloat` type over `ℝ`.
-/

/-- ASCII decimal digit, the class of `0` through `9`. -/
def isDigitC (c : Char) : Bool := decide (48 ≤ c.toNat) && decide (c.toNat ≤ 57)

/-- ASCII letter, upper or lower case. -/
def isAsciiAlpha (c : Char) : Bool :=
  (decide (65 ≤ c.toNat) && decide (c.toNat ≤ 90)) ||
  (decide (97 ≤ c.toNat) && decide (c.toNat ≤ 122))

/-- The benchmark-name character class (letters, digits, underscore, hyphen)
used by the filter expander and the summary-line patterns. -/
def isNameChar (c : Char) : Bool :=
  isAsciiAlpha c || isDigitC c || decide (c.toNat = 95) || decide (c.toNat = 45)

/-- The bench-name class of the stage spot-check patterns (name characters
together with the slash). -/
def isBenchChar (c : Char) : Bool := isNameChar c || decide (c.toNat = 47)

/-- The unit character class of the bracket-body tokenizer: ASCII letters and
the two micro signs (U+00B5 and U+03BC). -/
def isUnitChar (c : Char) : Bool :=
  isAsciiAlpha c || decide (c.toNat = 181) || decide (c.toNat = 956)

/-- Python whitespace (the `\s` class and `str.strip()` with no argument):
ASCII whitespace together with the Unicode whitespace code points. -/
def isPySpace (c : Char) : Bool :=
  decide (c.toNat = 32) || (decide (9 ≤ c.toNat) && decide (c.toNat ≤ 13)) ||
  (decide (28 ≤ c.toNat) && decide (c.toNat ≤ 31)) ||
  decide (c.toNat = 133) || decide (c.toNat = 160) || decide (c.toNat = 5760) ||
  (decide (8192 ≤ c.toNat) && decide (c.toNat ≤ 8202)) ||
  decide (c.toNat = 8232) || decide (c.toNat = 8233) || decide (c.toNat = 8239) ||
  decide (c.toNat = 8287) || decide (c.toNat = 12288)

/-- Line separators of Python `str.splitlines`. -/
def isLineSep (c : Char) : Bool :=
  decide (c.toNat = 10) || decide (c.toNat = 13) || decide (c.toNat = 11) ||
  decide (c.toNat = 12) || decide (c.toNat = 28) || decide (c.toNat = 29) ||
  decide (c.toNat = 30) || decide (c.toNat = 133) ||
  decide (c.toNat = 8232) || decide (c.toNat = 8233)

/-- Remove matching trailing characters, Python `str.rstrip(set)`. -/
def rstripP (p : Char → Bool) (l : List Char) : List Char :=
  (l.reverse.dropWhile p).reverse

/-- Remove matching characters at both ends, Python `str.strip(set)`. -/
def stripP (p : Char → Bool) (l : List Char) : List Char :=
  (rstripP p l).dropWhile p

/-- Greedy span: longest matching run and the remainder (the behaviour of a
maximal character-class run in the regexes below). -/
def spanP (p : Char → Bool) : List Char → List Char × List Char
  | [] => ([], [])
  | c :: cs =>
    if p c then
      let r := spanP p cs
      (c :: r.1, r.2)
    else ([], c :: cs)

theorem spanP_append (p : Char → Bool) (l : List Char) : (spanP p l).1 ++ (spanP p l).2 = l := by
  induction l with
  | nil => rfl
  | cons c cs ih =>
    by_cases h : p c
    · simp [spanP, h, ih]
    · simp [spanP, h]

theorem spanP_length (p : Char → Bool) (l : List Char) : (spanP p l).2.length ≤ l.length := by
  induction l with
  | nil => simp [spanP]
  | cons c cs ih =>
    by_cases h : p c
    · simp only [spanP, h, if_true]
      exact le_trans ih (Nat.le_succ _)
    · simp [spanP, h]

theorem spanP_all (p : Char → Bool) (l : List Char) : (spanP p l).1.all p := by
  induction l with
  | nil => rfl
  | cons c cs ih =>
    by_cases h : p c
    · simp only [spanP, h, if_true]
      simpa [h] using ih
    · simp [spanP, h]

/-- Split a character list at every occurrence of `sep`, keeping empty pieces:
Python `str.split(sep)` for a one-character separator. -/
def splitOnCharAux (sep : Char) : List Char → List Char → List (List Char)
  | [], acc => [acc.reverse]
  | c :: cs, acc =>
    if c = sep then acc.reverse :: splitOnCharAux sep cs []
    else splitOnCharAux sep cs (c :: acc)

/-- Python `str.split(sep)` for a one-character separator. -/
def splitOnChar (sep : Char) (l : List Char) : List (List Char) :=
  splitOnCharAux sep l []

/-- Recognize the exact shape `prefix/(body)` of the filter expression:
`re.fullmatch(r"(?P<prefix>[A-Za-z0-9_-]+)/\((?P<body>[^)]+)\)", text)`.
Returns the prefix and the parenthesized body on success. -/
def filterShape (text : List Char) : Option (List Char × List Char) :=
  let s := spanP isNameChar text
  if s.1 = [] then none
  else
    match s.2 with
    | '/' :: '(' :: r =>
      match r.reverse with
      | ')' :: revBody =>
        let body := revBody.reverse
        if body = [] then none
        else if body.any (fun c => c = ')') then none
        else some (s.1, body)
      | _ => none
    | _ => none

/-- `expand_filter_to_exact_benches` from `compare_mermaid_renderers.py`:
expand a `"group/(a|b|c)"` filter into exact benchmark names, falling back to
the (whitespace-stripped) expression as a one-element list. -/
def expand_filter_to_exact_benches (filter_expr : String) : List String :=
  let text := stripP isPySpace filter_expr.data
  match filterShape text with
  | none => [String.mk text]
  | some (pfx, body) =>
    let alts := ((splitOnChar '|' body).map (stripP isPySpace)).filter (fun a => a ≠ [])
    if alts.all (fun a => !a.isEmpty && a.all isNameChar) then
      match alts with
      | [] => [String.mk text]
      | _ => alts.map (fun a => String.mk (pfx ++ '/' :: a))
    else [String.mk text]

example : expand_filter_to_exact_benches "grp/(a|b|c)" = ["grp/a", "grp/b", "grp/c"] := by decide
example : expand_filter_to_exact_benches "grp/a" = ["grp/a"] := by decide
example : expand_filter_to_exact_benches "grp/(a|b!)" = ["grp/(a|b!)"] := by decide
example : expand_filter_to_exact_benches "grp/(a| b)" = ["grp/a", "grp/b"] := by decide
example : expand_filter_to_exact_benches "  grp/a!  " = ["grp/a!"] := by decide
example : expand_filter_to_exact_benches "grp/(|)" = ["grp/(|)"] := by decide

/-- Run character of an ANSI escape sequence, the class `[0-9;?]`. -/
def isAnsiRun (c : Char) : Bool := isDigitC c || decide (c.toNat = 59) || decide (c.toNat = 63)

/-- After `ESC [`, consume the `[0-9;?]*` run and the final letter; return the
remaining characters on success. -/
def ansiRun : List Char → Option (List Char)
  | [] => none
  | c :: cs => if isAnsiRun c then ansiRun cs else if isAsciiAlpha c then some cs else none

/-- Given the characters following an `ESC`, try to consume the rest of an
ANSI escape sequence (a literal bracket, the run, a final letter). -/
def ansiSkip : List Char → Option (List Char)
  | [] => none
  | c :: cs => if c = '[' then ansiRun cs else none

theorem ansiRun_length {cs r : List Char} (h : ansiRun cs = some r) : r.length < cs.length := by
  induction cs with
  | nil => simp [ansiRun] at h
  | cons c cs ih =>
    unfold ansiRun at h
    by_cases h1 : isAnsiRun c
    · simp [h1] at h
      exact Nat.lt_succ_of_lt (ih h)
    · by_cases h2 : isAsciiAlpha c
      · simp [h1, h2] at h
        simp [← h]
      · simp [h1, h2] at h

theorem ansiSkip_length {cs r : List Char} (h : ansiSkip cs = some r) : r.length < cs.length := by
  cases cs with
  | nil => simp [ansiSkip] at h
  | cons c cs =>
    unfold ansiSkip at h
    by_cases h1 : c = '['
    · simp [h1] at h
      exact Nat.lt_succ_of_lt (ansiRun_length h)
    · simp [h1] at h

/-- Fuel-driven scanner for `re.sub(ANSI, "", text)`: left-to-right,
non-overlapping matches removed.  The fuel is an upper bound on the length. -/
def stripAnsiGo : Nat → List Char → List Char
  | 0, _ => []
  | _ + 1, [] => []
  | f + 1, c :: cs =>
    if c = '\x1b' then
      match ansiSkip cs with
      | some r => stripAnsiGo f r
      | none => c :: stripAnsiGo f cs
    else c :: stripAnsiGo f cs

/-- `strip_ansi` on raw characters: `re.sub` of the ANSI escape pattern with
the empty string. -/
def stripAnsiL (l : List Char) : List Char := stripAnsiGo l.length l

theorem stripAnsiGo_fuel : ∀ f g : Nat, ∀ cs : List Char, cs.length ≤ f → cs.length ≤ g →
    stripAnsiGo f cs = stripAnsiGo g cs := by
  intro f
  induction f with
  | zero =>
    intro g cs hf _
    have : cs = [] := List.length_eq_zero.mp (Nat.le_zero.mp hf)
    subst this
    cases g <;> rfl
  | succ f ih =>
    intro g cs hf hg
    cases cs with
    | nil => cases g <;> rfl
    | cons c cs =>
      cases g with
      | zero => simp at hg
      | succ g =>
        simp only [List.length_cons, Nat.succ_le_succ_iff] at hf hg
        show (if c = '\x1b' then
            match ansiSkip cs with
            | some r => stripAnsiGo f r
            | none => c :: stripAnsiGo f cs
          else c :: stripAnsiGo f cs) =
          (if c = '\x1b' then
            match ansiSkip cs with
            | some r => stripAnsiGo g r
            | none => c :: stripAnsiGo g cs
          else c :: stripAnsiGo g cs)
        by_cases hc : c = '\x1b'
        · simp only [hc, if_true]
          cases hr : ansiSkip cs with
          | some r =>
            have hlen := ansiSkip_length hr
            exact ih g r (Nat.le_of_lt (Nat.lt_of_lt_of_le hlen hf))
              (Nat.le_of_lt (Nat.lt_of_lt_of_le hlen hg))
          | none => simp [ih g cs hf hg]
        · simp [hc, ih g cs hf hg]

theorem stripAnsiL_nil : stripAnsiL [] = [] := rfl

theorem stripAnsiL_cons (c : Char) (cs : List Char) :
    stripAnsiL (c :: cs) =
      if c = '\x1b' then
        match ansiSkip cs with
        | some r => stripAnsiL r
        | none => c :: stripAnsiL cs
      else c :: stripAnsiL cs := by
  show stripAnsiGo (cs.length + 1) (c :: cs) = _
  show (if c = '\x1b' then
      match ansiSkip cs with
      | some r => stripAnsiGo cs.length r
      | none => c :: stripAnsiGo cs.length cs
    else c :: stripAnsiGo cs.length cs) = _
  by_cases hc : c = '\x1b'
  · simp only [hc, if_true]
    cases hr : ansiSkip cs with
    | some r =>
      exact stripAnsiGo_fuel cs.length r.length r (Nat.le_of_lt (ansiSkip_length hr))
        (Nat.le_refl _)
    | none => rfl
  · simp [hc, stripAnsiL]

/-- `strip_ansi` from `compare_mermaid_renderers.py`. -/
def strip_ansi (s : String) : String := String.mk (stripAnsiL s.data)

example : strip_ansi "\x1b[1mfoo\x1b[0m" = "foo" := by decide
example : strip_ansi "\x1b\x1b[1m[2m" = "\x1b[2m" := by decide
example : stripAnsiL (stripAnsiL "\x1b\x1b[1m[2m".data) = [] := by decide

/-- Split one line off the front: returns the line, the consumed terminator
(empty, a single separator, or a CRLF pair) and the remainder. -/
def breakLine : List Char → List Char × List Char × List Char
  | [] => ([], [], [])
  | c :: cs =>
    if isLineSep c then
      if c = '\r' ∧ cs.head? = some '\n' then ([], ['\r', '\n'], cs.tail)
      else ([], [c], cs)
    else
      let r := breakLine cs
      (c :: r.1, r.2.1, r.2.2)

theorem breakLine_crlf (cs2 : List Char) :
    breakLine ('\r' :: '\n' :: cs2) = ([], ['\r', '\n'], cs2) := by
  simp [breakLine, isLineSep]

theorem breakLine_sep {c : Char} (cs : List Char) (h1 : isLineSep c)
    (h2 : ¬(c = '\r' ∧ cs.head? = some '\n')) : breakLine (c :: cs) = ([], [c], cs) := by
  unfold breakLine
  simp [h1, h2]

theorem breakLine_nonsep {c : Char} (cs : List Char) (h1 : ¬ isLineSep c) :
    breakLine (c :: cs) = (c :: (breakLine cs).1, (breakLine cs).2.1, (breakLine cs).2.2) := by
  rw [breakLine.eq_def]
  simp [h1]

theorem breakLine_length (cs : List Char) :
    (breakLine cs).1.length + (breakLine cs).2.1.length + (breakLine cs).2.2.length
      = cs.length := by
  induction cs with
  | nil => rfl
  | cons c cs ih =>
    by_cases h1 : isLineSep c
    · by_cases h2 : c = '\r' ∧ cs.head? = some '\n'
      · obtain ⟨h2a, h2b⟩ := h2
        cases cs with
        | nil => simp at h2b
        | cons c2 cs2 =>
          have hc2 : c2 = '\n' := by simpa using h2b
          subst hc2
          subst h2a
          rw [breakLine_crlf]
          simp
          omega
      · rw [breakLine_sep cs h1 h2]
        simp
        omega
    · rw [breakLine_nonsep cs h1]
      simp only [List.length_cons]
      omega

/-- Fuel-driven Python `str.splitlines`. -/
def splitLinesGo : Nat → List Char → List (List Char)
  | 0, _ => []
  | _ + 1, [] => []
  | f + 1, c :: cs =>
    let b := breakLine (c :: cs)
    b.1 :: (if b.2.1 = [] then [] else splitLinesGo f b.2.2)

/-- Python `str.splitlines` on raw characters. -/
def splitLinesL (l : List Char) : List (List Char) := splitLinesGo l.length l

theorem splitLinesGo_fuel : ∀ f g : Nat, ∀ cs : List Char, cs.length ≤ f → cs.length ≤ g →
    splitLinesGo f cs = splitLinesGo g cs := by
  intro f
  induction f with
  | zero =>
    intro g cs hf _
    have : cs = [] := List.length_eq_zero.mp (Nat.le_zero.mp hf)
    subst this
    cases g <;> rfl
  | succ f ih =>
    intro g cs hf hg
    cases cs with
    | nil => cases g <;> rfl
    | cons c cs =>
      cases g with
      | zero => simp at hg
      | succ g =>
        show (breakLine (c :: cs)).1 :: _ = (breakLine (c :: cs)).1 :: _
        by_cases ht : (breakLine (c :: cs)).2.1 = []
        · simp [splitLinesGo, ht]
        · have hlen := breakLine_length (c :: cs)
          have htl : 1 ≤ (breakLine (c :: cs)).2.1.length := by
            cases hh : (breakLine (c :: cs)).2.1 with
            | nil => exact absurd hh ht
            | cons a as => simp
          have hrest : (breakLine (c :: cs)).2.2.length ≤ cs.length := by
            simp only [List.length_cons] at hlen
            omega
          simp only [splitLinesGo, ht, if_false]
          have h1 : (breakLine (c :: cs)).2.2.length ≤ f := le_trans hrest (by simpa using hf)
          have h2 : (breakLine (c :: cs)).2.2.length ≤ g := le_trans hrest (by simpa using hg)
          rw [ih g _ h1 h2]

theorem splitLinesL_nil : splitLinesL [] = [] := rfl

theorem splitLinesL_cons (c : Char) (cs : List Char) :
    splitLinesL (c :: cs) =
      (breakLine (c :: cs)).1 ::
        (if (breakLine (c :: cs)).2.1 = [] then []
         else splitLinesL (breakLine (c :: cs)).2.2) := by
  show splitLinesGo (cs.length + 1) (c :: cs) = _
  show (breakLine (c :: cs)).1 :: _ = _
  by_cases ht : (breakLine (c :: cs)).2.1 = []
  · simp [ht]
  · have hlen := breakLine_length (c :: cs)
    have htl : 1 ≤ (breakLine (c :: cs)).2.1.length := by
      cases hh : (breakLine (c :: cs)).2.1 with
      | nil => exact absurd hh ht
      | cons a as => simp
    have hrest : (breakLine (c :: cs)).2.2.length ≤ cs.length := by
      simp only [List.length_cons] at hlen
      omega
    simp only [ht, if_false]
    rw [splitLinesGo_fuel cs.length (breakLine (c :: cs)).2.2.length _ hrest (Nat.le_refl _)]
    rfl

example : splitLinesL "ab\ncd".data = ["ab".data, "cd".data] := by decide
example : splitLinesL "ab\n".data = ["ab".data] := by decide
example : splitLinesL "ab\n\n".data = ["ab".data, [] ] := by decide
example : splitLinesL "a\r\nb".data = ["a".data, "b".data] := by decide
example : splitLinesL "a\rb".data = ["a".data, "b".data] := by decide
example : splitLinesL "".data = [] := by decide

/-- Decimal value of a digit run. -/
def digitsVal (l : List Char) : Nat := l.foldl (fun a c => a * 10 + (c.toNat - '0'.toNat)) 0

/-- Exact rational value of a numeric token of the shape digits-dot-digits
or plain digits (the idealization of Python `float(...)` on such tokens). -/
def numTokenToQ (s : List Char) : ℚ :=
  let ip := spanP isDigitC s
  match ip.2 with
  | '.' :: fr => (digitsVal ip.1 : ℚ) + (digitsVal fr : ℚ) / (10 : ℚ) ^ fr.length
  | _ => (digitsVal ip.1 : ℚ)

/-- A parsed estimate: numeric magnitude together with its raw unit text,
the `TimeEstimate` dataclass of `compare_mermaid_renderers.py`. -/
structure TimeEstimate where
  value : ℚ
  unit : String
deriving DecidableEq

/-- Unit normalization of `TimeEstimate.to_nanos`: strip ANSI codes and
whitespace and replace the Greek micro sign by the micro sign. -/
def canonUnit (u : String) : List Char :=
  (stripP isPySpace (stripAnsiL u.data)).map (fun c => if c = 'μ' then 'µ' else c)

/-- `TimeEstimate.to_nanos`: normalize the unit text, then apply the fixed
multiplier table.  `none` models the raised `ValueError`. -/
def to_nanos (e : TimeEstimate) : Option ℚ :=
  let u := canonUnit e.unit
  if u = "ns".data then some e.value
  else if u = "us".data ∨ u = "µs".data ∨ u = "μs".data then some (e.value * 1000)
  else if u = "ms".data then some (e.value * 1000000)
  else if u = "s".data then some (e.value * 1000000000)
  else none

theorem spanP_parts_length (p : Char → Bool) (l : List Char) :
    (spanP p l).1.length + (spanP p l).2.length = l.length := by
  conv_rhs => rw [← spanP_append p l]
  simp

theorem spanP_lt {p : Char → Bool} {l : List Char} (h : (spanP p l).1 ≠ []) :
    (spanP p l).2.length < l.length := by
  have hlen := spanP_parts_length p l
  have : 1 ≤ (spanP p l).1.length := by
    cases hh : (spanP p l).1 with
    | nil => exact absurd hh h
    | cons a as => simp
  omega

/-- The optional-fraction numeric token at the head: digits, then an optional
dot-digits group (resolved greedily, exactly as the regex backtracking does),
returning the token and the remainder. -/
def numSplit (cs : List Char) : List Char × List Char :=
  let d1 := spanP isDigitC cs
  if d1.2.head? = some '.' then
    let d2 := spanP isDigitC d1.2.tail
    if d2.1 = [] then (d1.1, d1.2) else (d1.1 ++ '.' :: d2.1, d2.2)
  else (d1.1, d1.2)

theorem numSplit_length (cs : List Char) : (numSplit cs).2.length ≤ cs.length := by
  unfold numSplit
  have h1 := spanP_length isDigitC cs
  by_cases hm : (spanP isDigitC cs).2.head? = some '.'
  · have h2 := spanP_length isDigitC (spanP isDigitC cs).2.tail
    have htail : (spanP isDigitC cs).2.tail.length + 1 = (spanP isDigitC cs).2.length := by
      cases hh : (spanP isDigitC cs).2 with
      | nil => rw [hh] at hm; simp at hm
      | cons a as => simp [hh]
    by_cases hd : (spanP isDigitC (spanP isDigitC cs).2.tail).1 = []
    · simp only [hm, if_true, hd]
      exact h1
    · simp only [hm, if_true, hd, if_false]
      omega
  · simp only [hm, if_false]
    exact h1

/-- One attempted match of the findall pair pattern (digits with optional
fraction, optional whitespace, a nonempty unit run) at the current position. -/
def tryPair (cs : List Char) : Option (List Char × List Char × List Char) :=
  let d1 := spanP isDigitC cs
  if d1.1 = [] then none
  else
    let nr := numSplit cs
    let r4 := (spanP isPySpace nr.2).2
    let u := spanP isUnitChar r4
    if u.1 = [] then none else some (nr.1, u.1, u.2)

theorem tryPair_length {cs n u rest : List Char} (h : tryPair cs = some (n, u, rest)) :
    rest.length < cs.length := by
  unfold tryPair at h
  by_cases h1 : (spanP isDigitC cs).1 = []
  · simp [h1] at h
  · simp only [h1, if_false] at h
    by_cases h2 : (spanP isUnitChar (spanP isPySpace (numSplit cs).2).2).1 = []
    · simp [h2] at h
    · simp only [h2, if_false, Option.some.injEq, Prod.mk.injEq] at h
      obtain ⟨-, -, hrest⟩ := h
      subst hrest
      calc (spanP isUnitChar (spanP isPySpace (numSplit cs).2).2).2.length
          < (spanP isPySpace (numSplit cs).2).2.length := spanP_lt h2
        _ ≤ (numSplit cs).2.length := spanP_length _ _
        _ ≤ cs.length := numSplit_length cs

/-- Fuel-driven scanner for
`re.findall(r"([0-9]+(?:\.[0-9]+)?)\s*([A-Za-zµμ]+)", body)`. -/
def findPairsGo : Nat → List Char → List (String × String)
  | 0, _ => []
  | _ + 1, [] => []
  | f + 1, c :: cs =>
    match tryPair (c :: cs) with
    | some (n, u, rest) => (String.mk n, String.mk u) :: findPairsGo f rest
    | none => findPairsGo f cs

/-- All numeric-and-unit pairs of a bracket body, leftmost first. -/
def findPairs (l : List Char) : List (String × String) := findPairsGo l.length l

theorem findPairsGo_fuel : ∀ f g : Nat, ∀ cs : List Char, cs.length ≤ f → cs.length ≤ g →
    findPairsGo f cs = findPairsGo g cs := by
  intro f
  induction f with
  | zero =>
    intro g cs hf _
    have : cs = [] := List.length_eq_zero.mp (Nat.le_zero.mp hf)
    subst this
    cases g <;> rfl
  | succ f ih =>
    intro g cs hf hg
    cases cs with
    | nil => cases g <;> rfl
    | cons c cs =>
      cases g with
      | zero => simp at hg
      | succ g =>
        simp only [List.length_cons, Nat.succ_le_succ_iff] at hf hg
        show (match tryPair (c :: cs) with
          | some (n, u, rest) => (String.mk n, String.mk u) :: findPairsGo f rest
          | none => findPairsGo f cs) =
          (match tryPair (c :: cs) with
          | some (n, u, rest) => (String.mk n, String.mk u) :: findPairsGo g rest
          | none => findPairsGo g cs)
        cases htp : tryPair (c :: cs) with
        | some t =>
          obtain ⟨n, u, rest⟩ := t
          have hlt := tryPair_length htp
          simp only [List.length_cons] at hlt
          have hr1 : rest.length ≤ f := by omega
          have hr2 : rest.length ≤ g := by omega
          simp [ih g rest hr1 hr2]
        | none => simp [ih g cs hf hg]

theorem findPairs_nil : findPairs [] = [] := rfl

theorem findPairs_cons (c : Char) (cs : List Char) :
    findPairs (c :: cs) =
      match tryPair (c :: cs) with
      | some (n, u, rest) => (String.mk n, String.mk u) :: findPairs rest
      | none => findPairs cs := by
  show findPairsGo (cs.length + 1) (c :: cs) = _
  show (match tryPair (c :: cs) with
    | some (n, u, rest) => (String.mk n, String.mk u) :: findPairsGo cs.length rest
    | none => findPairsGo cs.length cs) = _
  cases htp : tryPair (c :: cs) with
  | some t =>
    obtain ⟨n, u, rest⟩ := t
    have hlt := tryPair_length htp
    simp only [List.length_cons] at hlt
    have : rest.length ≤ cs.length := by omega
    simp [findPairs, findPairsGo_fuel cs.length rest.length rest this (Nat.le_refl _)]
  | none => rfl

/-- `_parse_bracket_time`: strip ANSI codes and outer whitespace, tokenize the
numeric-and-unit pairs, and keep the second (mid) pair; fewer than two pairs
yield no estimate.  (The `float` conversion of a matched numeric token cannot
fail, so the guarded exception path of the source is unreachable.) -/
def parse_bracket_time (body : String) : Option TimeEstimate :=
  let b := stripP isPySpace (stripAnsiL body.data)
  match findPairs b with
  | _ :: (v, u) :: _ => some ⟨numTokenToQ v.data, u⟩
  | _ => none

example : findPairs "1.0 ms 1.2 ms 1.5 ms".data =
  [("1.0", "ms"), ("1.2", "ms"), ("1.5", "ms")] := by decide
example : parse_bracket_time "1.0 ms 1.2 ms 1.5 ms" =
  some ⟨numTokenToQ "1.2".data, "ms"⟩ := by rfl
example : numTokenToQ "1.2".data = 6/5 := by
  simp +decide [numTokenToQ, spanP, isDigitC, digitsVal]
  norm_num
example : parse_bracket_time "totally malformed" = none := by decide
example : parse_bracket_time "12.5 µs" = none := by decide
example : parse_bracket_time "10 ns 20 ns" = some ⟨numTokenToQ "20".data, "ns"⟩ := by rfl
example : to_nanos ⟨6/5, "ms"⟩ = some (6/5 * 1000000) := by rfl
example : (6/5 * 1000000 : ℚ) = 1200000 := by norm_num
example : to_nanos ⟨1, "μs"⟩ = some (1 * 1000) := by rfl
example : to_nanos ⟨1, "xs"⟩ = none := by decide

/-- Common tail of the two timing-line patterns: the literal `time:`, optional
whitespace, an opening bracket, a non-greedy nonempty body, a closing bracket
and trailing whitespace; returns the body.  The non-greedy body together with
the anchored tail mean the closing bracket is the last non-whitespace
character of the line. -/
def matchTimeTail (cs : List Char) : Option String :=
  if cs.take 5 = "time:".data then
    let r := (spanP isPySpace (cs.drop 5)).2
    if r.head? = some '[' then
      let r4 := rstripP isPySpace r.tail
      if r4.getLast? = some ']' then
        if r4.dropLast = [] then none else some (String.mk r4.dropLast)
      else none
    else none
  else none

/-- The `_LINE_TIME_ONLY` pattern: optional leading whitespace then the
timing tail. -/
def matchTimeOnly (cs : List Char) : Option String :=
  matchTimeTail (spanP isPySpace cs).2

/-- The `_LINE_NAME_ONLY` pattern: `group/name` in the restricted charset
followed only by whitespace; returns the group and the name. -/
def matchNameOnly (cs : List Char) : Option (String × String) :=
  let g := spanP isNameChar cs
  if g.1 = [] then none
  else if g.2.head? = some '/' then
    let n := spanP isNameChar g.2.tail
    if n.1 = [] then none
    else if n.2.all isPySpace then some (String.mk g.1, String.mk n.1)
    else none
  else none

/-- The `_LINE_INLINE` pattern: `group/name`, mandatory whitespace, then the
timing tail; returns group, name and bracket body. -/
def matchInline (cs : List Char) : Option (String × String × String) :=
  let g := spanP isNameChar cs
  if g.1 = [] then none
  else if g.2.head? = some '/' then
    let n := spanP isNameChar g.2.tail
    if n.1 = [] then none
    else
      let w := spanP isPySpace n.2
      if w.1 = [] then none
      else
        match matchTimeTail w.2 with
        | some body => some (String.mk g.1, String.mk n.1, body)
        | none => none
  else none

example : matchTimeOnly "    time: [1.0 ms 1.2 ms 1.5 ms]".data =
  some "1.0 ms 1.2 ms 1.5 ms" := by decide
example : matchTimeOnly "time: []  ".data = none := by decide
example : matchTimeOnly "time: [a] b]".data = some "a] b" := by decide
example : matchNameOnly "end_to_end/foo".data = some ("end_to_end", "foo") := by decide
example : matchNameOnly "end_to_end/foo  time: [1 ns]".data = none := by decide
example : matchInline "end_to_end/foo  time: [1 ns 2 ns 3 ns]".data =
  some ("end_to_end", "foo", "1 ns 2 ns 3 ns") := by decide
example : matchInline "    time: [1.0 ms]".data = none := by decide

/-- The accumulating dictionary of the summary parser: Python-`dict`
assignment preserves insertion order, replacing in place on key collision. -/
def dinsert (m : List (String × TimeEstimate)) (k : String) (v : TimeEstimate) :
    List (String × TimeEstimate) :=
  if m.any (fun p => decide (p.1 = k)) then
    m.map (fun p => if p.1 = k then (k, v) else p)
  else m ++ [(k, v)]

/-- Parser state: the accumulated times table and the pending bare name
(`cur`) awaiting its timing line. -/
abbrev ParseState := List (String × TimeEstimate) × Option String

/-- Third dispatch step of the parser loop body: a `time: [...]` line is
examined only while a name is pending; the pending slot is cleared whether or
not the bracket body parses. -/
def stepTime (s : ParseState) (line : List Char) : ParseState :=
  match s.2 with
  | none => s
  | some cur =>
    match matchTimeOnly line with
    | none => s
    | some body =>
      match parse_bracket_time body with
      | some e => (dinsert s.1 cur e, none)
      | none => (s.1, none)

/-- Second dispatch step of the parser loop body: a bare `group/name` line of
the requested group overwrites the pending name. -/
def stepName (pfx : String) (s : ParseState) (line : List Char) : ParseState :=
  match matchNameOnly line with
  | some (g, n) => if g = pfx then (s.1, some n) else stepTime s line
  | none => stepTime s line

/-- The parser loop body on an already-cleaned line: inline match first, then
bare-name match, then the pending timing match. -/
def stepLine (pfx : String) (s : ParseState) (line : List Char) : ParseState :=
  match matchInline line with
  | some (g, n, body) =>
    if g = pfx then
      match parse_bracket_time body with
      | some e => (dinsert s.1 n e, none)
      | none => (s.1, none)
    else stepName pfx s line
  | none => stepName pfx s line

/-- Per-line cleaning of the parser: `strip_ansi(raw.rstrip("\r\n"))`. -/
def procLine (raw : List Char) : List Char :=
  stripAnsiL (rstripP (fun c => decide (c = '\r') || decide (c = '\n')) raw)

/-- The parser loop body on a raw line. -/
def stepRaw (pfx : String) (s : ParseState) (raw : List Char) : ParseState :=
  stepLine pfx s (procLine raw)

/-- `parse_criterion_times`: fold the loop body over the split lines and
return the accumulated mid-estimate table. -/
def parse_criterion_times (text : String) (pfx : String) : List (String × TimeEstimate) :=
  ((splitLinesL text.data).foldl (stepRaw pfx) ([], none)).1

example : parse_criterion_times "end_to_end/foo\n    time: [1.0 ms 1.2 ms 1.5 ms]"
    "end_to_end" = [("foo", ⟨numTokenToQ "1.2".data, "ms"⟩)] := by rfl
example : parse_criterion_times "    time: [1.0 ms 1.2 ms 1.5 ms]" "end_to_end" = [] := by rfl
example : parse_criterion_times "other/foo\n    time: [1.0 ms 1.2 ms 1.5 ms]"
    "end_to_end" = [] := by rfl
example : parse_criterion_times
    "end_to_end/foo\nend_to_end/bar\n    time: [1.0 ms 1.2 ms 1.5 ms]"
    "end_to_end" = [("bar", ⟨numTokenToQ "1.2".data, "ms"⟩)] := by rfl

theorem spanP_nil_snd {p : Char → Bool} {l : List Char} (h : (spanP p l).1 = []) :
    (spanP p l).2 = l := by
  have := spanP_append p l
  rwa [h, List.nil_append] at this

theorem spanP_all_consume {p : Char → Bool} {l : List Char} (h : l.all p = true) :
    spanP p l = (l, []) := by
  induction l with
  | nil => rfl
  | cons c cs ih =>
    simp only [List.all_cons, Bool.and_eq_true] at h
    simp [spanP, h.1, ih h.2]

theorem pySpace_not_nameChar {c : Char} (h : isPySpace c = true) : isNameChar c = false := by
  simp only [isPySpace, Bool.or_eq_true, Bool.and_eq_true, decide_eq_true_eq] at h
  by_contra hn
  rw [Bool.not_eq_false] at hn
  simp only [isNameChar, isAsciiAlpha, isDigitC, Bool.or_eq_true, Bool.and_eq_true,
    decide_eq_true_eq] at hn
  omega

theorem matchTimeOnly_shape {cs : List Char} {b : String} (h : matchTimeOnly cs = some b) :
    (spanP isPySpace cs).2 =
      't' :: 'i' :: 'm' :: 'e' :: ':' :: (spanP isPySpace cs).2.drop 5 := by
  unfold matchTimeOnly matchTimeTail at h
  by_cases h5 : (spanP isPySpace cs).2.take 5 = "time:".data
  · have := List.take_append_drop 5 (spanP isPySpace cs).2
    rw [h5] at this
    exact this.symm
  · simp [h5] at h

theorem timeOnly_not_name {cs : List Char} {b : String} (h : matchTimeOnly cs = some b) :
    matchNameOnly cs = none := by
  cases hw : (spanP isPySpace cs).1 with
  | nil =>
    have hcs : (spanP isPySpace cs).2 = cs := spanP_nil_snd hw
    have hshape := matchTimeOnly_shape h
    rw [hcs] at hshape
    rw [matchNameOnly, hshape]
    simp +decide [spanP]
  | cons c0 w1 =>
    have hall := spanP_all isPySpace cs
    rw [hw] at hall
    simp only [List.all_cons, Bool.and_eq_true] at hall
    have hcs : cs = c0 :: (w1 ++ (spanP isPySpace cs).2) := by
      conv_lhs => rw [← spanP_append isPySpace cs]
      rw [hw]
      simp
    rw [matchNameOnly, hcs]
    simp [spanP, pySpace_not_nameChar hall.1]

theorem timeOnly_not_inline {cs : List Char} {b : String} (h : matchTimeOnly cs = some b) :
    matchInline cs = none := by
  cases hw : (spanP isPySpace cs).1 with
  | nil =>
    have hcs : (spanP isPySpace cs).2 = cs := spanP_nil_snd hw
    have hshape := matchTimeOnly_shape h
    rw [hcs] at hshape
    rw [matchInline, hshape]
    simp +decide [spanP]
  | cons c0 w1 =>
    have hall := spanP_all isPySpace cs
    rw [hw] at hall
    simp only [List.all_cons, Bool.and_eq_true] at hall
    have hcs : cs = c0 :: (w1 ++ (spanP isPySpace cs).2) := by
      conv_lhs => rw [← spanP_append isPySpace cs]
      rw [hw]
      simp
    rw [matchInline, hcs]
    simp [spanP, pySpace_not_nameChar hall.1]

theorem name_not_inline {cs : List Char} {g n : String} (h : matchNameOnly cs = some (g, n)) :
    matchInline cs = none := by
  unfold matchNameOnly at h
  by_cases h1 : (spanP isNameChar cs).1 = []
  · simp [h1] at h
  · simp only [h1, if_false] at h
    by_cases h2 : (spanP isNameChar cs).2.head? = some '/'
    · simp only [h2, if_true] at h
      by_cases h3 : (spanP isNameChar (spanP isNameChar cs).2.tail).1 = []
      · simp [h3] at h
      · simp only [h3, if_false] at h
        by_cases h4 : (spanP isNameChar (spanP isNameChar cs).2.tail).2.all isPySpace
        · unfold matchInline
          simp only [h1, if_false, h2, if_true, h3, if_false]
          rw [spanP_all_consume h4]
          simp [matchTimeTail]
        · simp [h4] at h
    · simp [h2] at h

/-- C1: on a cleaned line matching the standalone timing pattern, the parser
loop body emits only when a name is pending (the estimate for a parseable
body, nothing for a malformed one) and clears the pending slot in either
case; with no pending name such a line changes nothing.  A bare name line of
the requested group always overwrites the pending slot.  The concrete
scenario from the specification is included: a name line followed by an
indented timing line yields the mid estimate, and a later timing line with
no pending name emits nothing. -/
theorem claim_C1 :
    (∀ (pfx : String) (times : List (String × TimeEstimate)) (n : String)
        (line : List Char) (body : String),
      matchTimeOnly line = some body →
        stepLine pfx (times, some n) line =
          ((match parse_bracket_time body with
            | some e => dinsert times n e
            | none => times), none)
        ∧ stepLine pfx (times, none) line = (times, none))
    ∧ (∀ (pfx : String) (s : ParseState) (line : List Char) (g n : String),
        matchNameOnly line = some (g, n) → g = pfx →
          stepLine pfx s line = (s.1, some n))
    ∧ parse_criterion_times
        "end_to_end/foo\n    time: [1.0 ms 1.2 ms 1.5 ms]\ntime: [9.0 ms 9.0 ms 9.0 ms]"
        "end_to_end"
      = [("foo", ⟨numTokenToQ "1.2".data, "ms"⟩)] := by
  refine ⟨?_, ?_, by rfl⟩
  · intro pfx times n line body ht
    have hi := timeOnly_not_inline ht
    have hn := timeOnly_not_name ht
    constructor
    · rw [stepLine, hi, stepName, hn, stepTime]
      simp only [ht]
      cases parse_bracket_time body <;> rfl
    · rw [stepLine, hi, stepName, hn, stepTime]
  · intro pfx s line g n hm hg
    have hi := name_not_inline hm
    rw [stepLine, hi, stepName, hm]
    simp [hg]

/-- Witness for C1 at concrete inputs: a malformed timing line clears the
pending name without emitting, is inert with no pending name, and a bare name
line overwrites the pending name. -/
theorem claim_C1_witness :
    matchTimeOnly "  time: [bad]".data = some "bad" ∧
    stepLine "end_to_end" ([], some "foo") "  time: [bad]".data = ([], none) ∧
    stepLine "end_to_end" ([], none) "  time: [bad]".data = ([], none) ∧
    matchNameOnly "end_to_end/bar".data = some ("end_to_end", "bar") ∧
    stepLine "end_to_end" ([], some "foo") "end_to_end/bar".data = ([], some "bar") :=
  ⟨by decide,
   (claim_C1.1 "end_to_end" [] "foo" "  time: [bad]".data "bad" (by decide)).1,
   (claim_C1.1 "end_to_end" [] "foo" "  time: [bad]".data "bad" (by decide)).2,
   by decide,
   claim_C1.2.1 "end_to_end" ([], some "foo") "end_to_end/bar".data "end_to_end" "bar"
     (by decide) rfl⟩

theorem spanP_append_notP {p : Char → Bool} {xs : List Char} {c : Char} (ys : List Char)
    (hall : xs.all p = true) (hc : p c = false) :
    spanP p (xs ++ c :: ys) = (xs, c :: ys) := by
  induction xs with
  | nil => simp [spanP, hc]
  | cons a as ih =>
    simp only [List.all_cons, Bool.and_eq_true] at hall
    simp [spanP, hall.1, ih hall.2]

/-- The language of the numeric group of the findall pattern: one or more
digits with an optional dot-and-digits fraction. -/
def isNumShape (s : List Char) : Bool :=
  let ip := spanP isDigitC s
  decide (ip.1 ≠ []) &&
  (decide (ip.2 = []) ||
    (decide (ip.2.head? = some '.') && decide (ip.2.tail ≠ []) && ip.2.tail.all isDigitC))

/-- The language of the unit group of the findall pattern: one or more ASCII
letters or micro signs. -/
def isUnitShape (s : List Char) : Bool := decide (s ≠ []) && s.all isUnitChar

theorem tryPair_shape {cs n u rest : List Char} (h : tryPair cs = some (n, u, rest)) :
    isNumShape n = true ∧ isUnitShape u = true := by
  unfold tryPair at h
  by_cases h1 : (spanP isDigitC cs).1 = []
  · simp [h1] at h
  · simp only [h1, if_false] at h
    by_cases h2 : (spanP isUnitChar (spanP isPySpace (numSplit cs).2).2).1 = []
    · simp [h2] at h
    · simp only [h2, if_false, Option.some.injEq, Prod.mk.injEq] at h
      obtain ⟨hn, hu, -⟩ := h
      constructor
      · subst hn
        unfold numSplit
        by_cases hm : (spanP isDigitC cs).2.head? = some '.'
        · by_cases hd : (spanP isDigitC (spanP isDigitC cs).2.tail).1 = []
          · simp only [hm, if_true, hd, if_true]
            unfold isNumShape
            rw [spanP_all_consume (spanP_all isDigitC cs)]
            simpa using h1
          · simp only [hm, if_true, hd, if_false]
            unfold isNumShape
            rw [spanP_append_notP _ (spanP_all isDigitC cs) (by decide)]
            simp [h1, hd, spanP_all isDigitC ((spanP isDigitC cs).2.tail)]
        · simp only [hm, if_false]
          unfold isNumShape
          rw [spanP_all_consume (spanP_all isDigitC cs)]
          simpa using h1
      · subst hu
        unfold isUnitShape
        simp only [Bool.and_eq_true, decide_eq_true_eq]
        exact ⟨h2, spanP_all isUnitChar _⟩

theorem findPairs_shape_aux : ∀ (len : Nat) (l : List Char), l.length = len →
    ∀ pr ∈ findPairs l, isNumShape pr.1.data = true ∧ isUnitShape pr.2.data = true := by
  intro len
  induction len using Nat.strong_induction_on with
  | _ len ih =>
    intro l hlen pr hm
    cases l with
    | nil => simp [findPairs_nil] at hm
    | cons c cs =>
      have hlen2 : cs.length + 1 = len := by simpa using hlen
      rw [findPairs_cons] at hm
      cases htp : tryPair (c :: cs) with
      | some t =>
        obtain ⟨n, u, rest⟩ := t
        rw [htp] at hm
        simp only [List.mem_cons] at hm
        cases hm with
        | inl he =>
          subst he
          exact tryPair_shape htp
        | inr hm =>
          have hlt := tryPair_length htp
          simp only [List.length_cons] at hlt
          exact ih rest.length (by omega) rest rfl pr hm
      | none =>
        rw [htp] at hm
        exact ih cs.length (by omega) cs rfl pr hm

/-- C2: the bracket-body tokenizer extracts only pairs of a numeric token
(one or more digits with an optional fraction) and a unit token (letters or
micro signs); with fewer than two pairs no estimate is produced, and with at
least two pairs the retained estimate is exactly the second pair. -/
theorem claim_C2 :
    (∀ (l : List Char) (pr : String × String), pr ∈ findPairs l →
        isNumShape pr.1.data = true ∧ isUnitShape pr.2.data = true)
    ∧ (∀ body : String, (findPairs (stripP isPySpace (stripAnsiL body.data))).length < 2 →
        parse_bracket_time body = none)
    ∧ (∀ (body : String) (p0 p1 : String × String) (rest : List (String × String)),
        findPairs (stripP isPySpace (stripAnsiL body.data)) = p0 :: p1 :: rest →
        parse_bracket_time body = some ⟨numTokenToQ p1.1.data, p1.2⟩) := by
  refine ⟨fun l pr hm => findPairs_shape_aux l.length l rfl pr hm, ?_, ?_⟩
  · intro body hlen
    show (match findPairs (stripP isPySpace (stripAnsiL body.data)) with
      | _ :: (v, u) :: _ => some (⟨numTokenToQ v.data, u⟩ : TimeEstimate)
      | _ => none) = none
    cases hf : findPairs (stripP isPySpace (stripAnsiL body.data)) with
    | nil => rfl
    | cons p0 t =>
      cases t with
      | nil => rfl
      | cons p1 rest =>
        rw [hf] at hlen
        simp at hlen
        omega
  · intro body p0 p1 rest hf
    show (match findPairs (stripP isPySpace (stripAnsiL body.data)) with
      | _ :: (v, u) :: _ => some (⟨numTokenToQ v.data, u⟩ : TimeEstimate)
      | _ => none) = _
    rw [hf]

/-- Witness for C2 at concrete bodies: the canonical triple body retains the
second (mid) pair, a single-pair body yields no estimate, and the mid pair of
the triple body has the advertised token shapes. -/
theorem claim_C2_witness :
    parse_bracket_time "1.0 ms 1.2 ms 1.5 ms" = some ⟨numTokenToQ "1.2".data, "ms"⟩ ∧
    parse_bracket_time "12.5 µs" = none ∧
    (isNumShape "1.2".data = true ∧ isUnitShape "ms".data = true) :=
  ⟨claim_C2.2.2 "1.0 ms 1.2 ms 1.5 ms" ("1.0", "ms") ("1.2", "ms") [("1.5", "ms")] (by decide),
   claim_C2.2.1 "12.5 µs" (by decide),
   claim_C2.1 "1.0 ms 1.2 ms 1.5 ms".data ("1.2", "ms") (by decide)⟩

/-- Lexicographic comparison on code points (Python string order). -/
def lexLe : List Char → List Char → Bool
  | [], _ => true
  | _ :: _, [] => false
  | a :: as, b :: bs =>
    if a.toNat < b.toNat then true
    else if b.toNat < a.toNat then false
    else lexLe as bs

/-- Python `<=` on strings. -/
def strLe (a b : String) : Bool := lexLe a.data b.data

/-- Insert into a sorted list, keeping equal elements stable. -/
def insertSorted (x : String) : List String → List String
  | [] => [x]
  | y :: ys => if strLe x y then x :: y :: ys else y :: insertSorted x ys

/-- Python `sorted` on strings (stable, ascending code-point order). -/
def sortStrs (l : List String) : List String := l.foldr insertSorted []

theorem mem_insertSorted (x y : String) (l : List String) :
    y ∈ insertSorted x l ↔ y = x ∨ y ∈ l := by
  induction l with
  | nil => simp [insertSorted]
  | cons a as ih =>
    by_cases h : strLe x a
    · simp [insertSorted, h]
    · simp [insertSorted, h, ih]
      tauto

theorem mem_sortStrs (y : String) (l : List String) : y ∈ sortStrs l ↔ y ∈ l := by
  induction l with
  | nil => simp [sortStrs]
  | cons a as ih =>
    show y ∈ insertSorted a (sortStrs as) ↔ _
    rw [mem_insertSorted]
    simp [ih]

/-- The set reconciliation of `main` in `compare_mermaid_renderers.py`:
runnable benches are the requested ones advertised by both repos, and each
repo's missing list records the requested names it does not advertise,
sorted. -/
def reconcile (requested merman_benches mmdr_benches : List String) :
    List String × List String × List String :=
  let missing_merman := sortStrs (requested.filter (fun b => decide (b ∉ merman_benches)))
  let missing_mmdr := sortStrs (requested.filter (fun b => decide (b ∉ mmdr_benches)))
  let benches := requested.filter
    (fun b => decide (b ∈ merman_benches) && decide (b ∈ mmdr_benches))
  (benches, missing_merman, missing_mmdr)

/-- The hard-stop of `main`: `raise SystemExit(...)` with both missing lists
surfaced exactly when no requested bench is runnable. -/
def reconcile_or_fail (requested merman_benches mmdr_benches : List String) :
    Except (List String × List String) (List String) :=
  let r := reconcile requested merman_benches mmdr_benches
  if r.1 = [] then Except.error (r.2.1, r.2.2) else Except.ok r.1

/-- C3: the runnable list is exactly the requested names advertised by every
mandatory source, each missing list records exactly the requested-but-absent
names of its source, the run hard-fails surfacing both missing lists if and
only if the runnable list is empty, and a non-empty runnable list proceeds.
The concrete reconciliation example of the specification is included. -/
theorem claim_C3 :
    (∀ (requested A B : List String) (b : String),
        b ∈ (reconcile requested A B).1 ↔ b ∈ requested ∧ b ∈ A ∧ b ∈ B)
    ∧ (∀ (requested A B : List String) (b : String),
        b ∈ (reconcile requested A B).2.1 ↔ b ∈ requested ∧ b ∉ A)
    ∧ (∀ (requested A B : List String) (b : String),
        b ∈ (reconcile requested A B).2.2 ↔ b ∈ requested ∧ b ∉ B)
    ∧ (∀ requested A B : List String,
        reconcile_or_fail requested A B
            = Except.error ((reconcile requested A B).2.1, (reconcile requested A B).2.2)
          ↔ (reconcile requested A B).1 = [])
    ∧ (∀ requested A B : List String, (reconcile requested A B).1 ≠ [] →
        reconcile_or_fail requested A B = Except.ok (reconcile requested A B).1)
    ∧ reconcile ["g/a", "g/b"] ["g/a"] ["g/a", "g/b"] = (["g/a"], ["g/b"], []) := by
  refine ⟨?_, ?_, ?_, ?_, ?_, by decide⟩
  · intro requested A B b
    show b ∈ requested.filter _ ↔ _
    rw [List.mem_filter]
    simp
  · intro requested A B b
    show b ∈ sortStrs (requested.filter _) ↔ _
    rw [mem_sortStrs, List.mem_filter]
    simp
  · intro requested A B b
    show b ∈ sortStrs (requested.filter _) ↔ _
    rw [mem_sortStrs, List.mem_filter]
    simp
  · intro requested A B
    unfold reconcile_or_fail
    by_cases h : (reconcile requested A B).1 = []
    · simp [h]
    · simp [h]
  · intro requested A B h
    unfold reconcile_or_fail
    simp [h]

/-- Witness for C3: the specification's example has a non-empty runnable
list, so the run proceeds with exactly that list. -/
theorem claim_C3_witness :
    reconcile_or_fail ["g/a", "g/b"] ["g/a"] ["g/a", "g/b"] = Except.ok ["g/a"] :=
  claim_C3.2.2.2.2.1 ["g/a", "g/b"] ["g/a"] ["g/a", "g/b"] (by decide)

/-- Decimal digits of a natural number (fuel-driven). -/
def natStrGo : Nat → Nat → List Char
  | 0, _ => []
  | f + 1, n =>
    if n < 10 then [Char.ofNat (48 + n)]
    else natStrGo f (n / 10) ++ [Char.ofNat (48 + n % 10)]

/-- Decimal rendering of a natural number. -/
def natStr (n : Nat) : String := String.mk (natStrGo (n + 1) n)

/-- Round half to even, the rounding of Python float formatting (idealized
over exact rationals). -/
def rhe (x : ℚ) : ℤ :=
  let f := ⌊x⌋
  let frac := x - f
  if frac < 1/2 then f
  else if 1/2 < frac then f + 1
  else if f % 2 = 0 then f else f + 1

/-- Python two-decimal fixed formatting of a finite value, idealized over ℚ. -/
def fmt2 (q : ℚ) : String :=
  let n := rhe (q * 100)
  let m := n.natAbs
  (if n < 0 then "-" else "") ++ natStr (m / 100) ++ "." ++
    (if m % 100 < 10 then "0" ++ natStr (m % 100) else natStr (m % 100))

/-- `pretty_time` from `compare_mermaid_renderers.py`: auto-scaled duration
rendering with strict thresholds at each power of a thousand. -/
def pretty_time (nanos : ℚ) : String :=
  if nanos < 1000 then fmt2 nanos ++ " ns"
  else if nanos < 1000000 then fmt2 (nanos / 1000) ++ " µs"
  else if nanos < 1000000000 then fmt2 (nanos / 1000000) ++ " ms"
  else fmt2 (nanos / 1000000000) ++ " s"

theorem rhe_100 : rhe 100 = 100 := by
  unfold rhe
  norm_num

theorem fmt2_one : fmt2 1 = "1.00" := by
  have h1 : (1 : ℚ) * 100 = 100 := by norm_num
  simp only [fmt2, h1, rhe_100]
  decide

/-- C7: the duration formatter falls through the four units with a strict
less-than comparison at each power-of-a-thousand boundary, so the displayed
magnitude is at least one in the chosen unit whenever a coarser unit exists
(and any coarser unit would display below one); in particular exactly 1000 ns
renders as 1.00 in microseconds, not as 1000.00 ns, and likewise at the
millisecond and second boundaries. -/
theorem claim_C7 :
    pretty_time 1000 = "1.00 µs"
    ∧ pretty_time 1000 ≠ "1000.00 ns"
    ∧ pretty_time 1000000 = "1.00 ms"
    ∧ pretty_time 1000000000 = "1.00 s"
    ∧ (∀ q : ℚ, q < 1000 → pretty_time q = fmt2 q ++ " ns")
    ∧ (∀ q : ℚ, 1000 ≤ q → q < 1000000 →
        pretty_time q = fmt2 (q / 1000) ++ " µs" ∧ 1 ≤ q / 1000 ∧ q / 1000000 < 1)
    ∧ (∀ q : ℚ, 1000000 ≤ q → q < 1000000000 →
        pretty_time q = fmt2 (q / 1000000) ++ " ms" ∧ 1 ≤ q / 1000000 ∧ q / 1000000000 < 1)
    ∧ (∀ q : ℚ, 1000000000 ≤ q →
        pretty_time q = fmt2 (q / 1000000000) ++ " s" ∧ 1 ≤ q / 1000000000) := by
  have hus : pretty_time 1000 = "1.00 µs" := by
    rw [pretty_time, if_neg (by norm_num), if_pos (by norm_num : (1000:ℚ) < 1000000),
      show (1000:ℚ)/1000 = 1 by norm_num, fmt2_one]
    decide
  have hms : pretty_time 1000000 = "1.00 ms" := by
    rw [pretty_time, if_neg (by norm_num), if_neg (by norm_num),
      if_pos (by norm_num : (1000000:ℚ) < 1000000000),
      show (1000000:ℚ)/1000000 = 1 by norm_num, fmt2_one]
    decide
  have hs : pretty_time 1000000000 = "1.00 s" := by
    rw [pretty_time, if_neg (by norm_num), if_neg (by norm_num), if_neg (by norm_num),
      show (1000000000:ℚ)/1000000000 = 1 by norm_num, fmt2_one]
    decide
  refine ⟨hus, by rw [hus]; decide, hms, hs, ?_, ?_, ?_, ?_⟩
  · intro q h
    rw [pretty_time, if_pos h]
  · intro q h1 h2
    refine ⟨by rw [pretty_time, if_neg (not_lt.mpr h1), if_pos h2], ?_, ?_⟩
    · rw [le_div_iff₀ (by norm_num : (0:ℚ) < 1000)]
      linarith
    · rw [div_lt_one (by norm_num : (0:ℚ) < 1000000)]
      exact h2
  · intro q h1 h2
    refine ⟨by rw [pretty_time, if_neg (by linarith), if_neg (not_lt.mpr h1), if_pos h2],
      ?_, ?_⟩
    · rw [le_div_iff₀ (by norm_num : (0:ℚ) < 1000000)]
      linarith
    · rw [div_lt_one (by norm_num : (0:ℚ) < 1000000000)]
      exact h2
  · intro q h1
    refine ⟨by rw [pretty_time, if_neg (by linarith), if_neg (by linarith),
      if_neg (not_lt.mpr h1)], ?_⟩
    rw [le_div_iff₀ (by norm_num : (0:ℚ) < 1000000000)]
    linarith

/-- Witness for C7 at the microsecond boundary value: the hypotheses of the
microsecond branch hold at exactly 1000 ns and the displayed magnitude there
is at least one. -/
theorem claim_C7_witness :
    (1000 : ℚ) ≤ 1000 ∧ (1000 : ℚ) < 1000000 ∧
    (pretty_time 1000 = fmt2 ((1000 : ℚ) / 1000) ++ " µs" ∧
      1 ≤ (1000 : ℚ) / 1000 ∧ (1000 : ℚ) / 1000000 < 1) :=
  ⟨by decide, by decide, claim_C7.2.2.2.2.2.1 1000 (by decide) (by decide)⟩

/-- A duration canonicalized to microseconds together with its raw token,
the `Duration` dataclass of `stage_spotcheck.py`. -/
structure PyDuration where
  micros : ℚ
  raw : String
deriving DecidableEq

/-- Python `float(...)` on a token drawn from digits and dots: defined (an
exact rational) for one optional dot with at least one digit, undefined
(raised `ValueError`) otherwise. -/
def pyFloatNumDot (s : List Char) : Option ℚ :=
  let d1 := spanP isDigitC s
  if d1.2 = [] then
    if d1.1 = [] then none else some (digitsVal d1.1 : ℚ)
  else if d1.2.head? = some '.' then
    let d2 := spanP isDigitC d1.2.tail
    if d2.2 ≠ [] then none
    else if d1.1 = [] ∧ d2.1 = [] then none
    else some ((digitsVal d1.1 : ℚ) + (digitsVal d2.1 : ℚ) / (10 : ℚ) ^ d2.1.length)
  else none

/-- The numeric-token class of `parse_duration` (digits and the dot). -/
def isNumDotChar (c : Char) : Bool := isDigitC c || decide (c.toNat = 46)

/-- `parse_duration` from `stage_spotcheck.py`: strip the token, match
digits-and-dots, optional whitespace and one of the five unit spellings
(`ns`, the micro-sign `µs`, ASCII `us`, `ms`, `s` — the Greek-mu spelling is
not among them), convert the number and canonicalize to microseconds.
`none` models the raised `ValueError`, either from the unmatched pattern or
from a numeric token `float` rejects. -/
def parse_duration (token : String) : Option PyDuration :=
  let t := stripP isPySpace token.data
  let num := spanP isNumDotChar t
  if num.1 = [] then none
  else
    let rest := (spanP isPySpace num.2).2
    if rest = "ns".data ∨ rest = "µs".data ∨ rest = "us".data ∨ rest = "ms".data
        ∨ rest = "s".data then
      match pyFloatNumDot num.1 with
      | none => none
      | some q =>
        let micros :=
          if rest = "ns".data then q / 1000
          else if rest = "µs".data ∨ rest = "us".data then q
          else if rest = "ms".data then q * 1000
          else q * 1000000
        some ⟨micros, String.mk t⟩
    else none

example : (parse_duration "1.5ms").map PyDuration.raw = some "1.5ms" := by rfl
example : parse_duration "1.2.3 ms" = none := by decide
example : parse_duration "5" = none := by decide
example : parse_duration "1.0 μs" = none := by decide

/-- C8 (counterexample): the claim holds of `to_nanos` but not of
`parse_duration`: the token `"1.0 μs"` uses the Greek micro sign U+03BC,
which the claim says duration parsing recognizes, yet `parse_duration`
rejects it (while `to_nanos` accepts that spelling on the same unit). -/
theorem claim_C8_counterexample :
    parse_duration "1.0 μs" = none ∧ to_nanos ⟨1, "μs"⟩ = some (1 * 1000) :=
  ⟨by decide, by rfl⟩

/-- C8 (amended): `to_nanos` recognizes exactly the four units with ASCII
`us` and both micro-sign spellings as synonyms, multiplying by the nanosecond
table (ns ×1, µs ×1e3, ms ×1e6, s ×1e9), and fails on every other normalized
unit; `parse_duration` accepts tokens `number, optional whitespace, unit`
only for the five spellings `ns`, `µs` (U+00B5), `us`, `ms`, `s` — not the
Greek-mu variant — canonicalizing to microseconds by the equivalent table
(ns ÷1e3, µs ×1, ms ×1e3, s ×1e6), and any other token fails with an error
rather than coercing to zero. -/
theorem claim_C8 :
    (∀ v : ℚ, to_nanos ⟨v, "ns"⟩ = some v
      ∧ to_nanos ⟨v, "us"⟩ = some (v * 1000)
      ∧ to_nanos ⟨v, "µs"⟩ = some (v * 1000)
      ∧ to_nanos ⟨v, "μs"⟩ = some (v * 1000)
      ∧ to_nanos ⟨v, "ms"⟩ = some (v * 1000000)
      ∧ to_nanos ⟨v, "s"⟩ = some (v * 1000000000))
    ∧ (∀ (v : ℚ) (u : String), to_nanos ⟨v, u⟩ = none ↔
        ¬(canonUnit u = "ns".data ∨ canonUnit u = "us".data ∨ canonUnit u = "µs".data
          ∨ canonUnit u = "μs".data ∨ canonUnit u = "ms".data ∨ canonUnit u = "s".data))
    ∧ (∀ (s : String) (d : PyDuration), parse_duration s = some d →
        ∃ num ws unit : List Char,
          stripP isPySpace s.data = num ++ ws ++ unit
          ∧ num ≠ [] ∧ num.all isNumDotChar = true
          ∧ ws.all isPySpace = true
          ∧ (unit = "ns".data ∨ unit = "µs".data ∨ unit = "us".data ∨ unit = "ms".data
              ∨ unit = "s".data))
    ∧ (parse_duration "3 ns").map PyDuration.micros = some (numTokenToQ "3".data / 1000)
    ∧ (parse_duration "3 µs").map PyDuration.micros = some (numTokenToQ "3".data)
    ∧ (parse_duration "3 us").map PyDuration.micros = some (numTokenToQ "3".data)
    ∧ (parse_duration "3 ms").map PyDuration.micros = some (numTokenToQ "3".data * 1000)
    ∧ (parse_duration "3 s").map PyDuration.micros = some (numTokenToQ "3".data * 1000000)
    ∧ parse_duration "1.0 μs" = none
    ∧ parse_duration "" = none
    ∧ parse_duration "7 xs" = none := by
  refine ⟨?_, ?_, ?_, by rfl, by rfl, by rfl, by rfl, by rfl, by decide, by decide, by decide⟩
  · intro v
    refine ⟨by rfl, by rfl, by rfl, by rfl, by rfl, by rfl⟩
  · intro v u
    show (if canonUnit u = "ns".data then some v
      else if canonUnit u = "us".data ∨ canonUnit u = "µs".data ∨ canonUnit u = "μs".data
        then some (v * 1000)
      else if canonUnit u = "ms".data then some (v * 1000000)
      else if canonUnit u = "s".data then some (v * 1000000000)
      else none) = none ↔ _
    by_cases h1 : canonUnit u = "ns".data
    · simp [h1]
    · by_cases h2 : canonUnit u = "us".data ∨ canonUnit u = "µs".data
        ∨ canonUnit u = "μs".data
      · simp only [h1, if_false, h2, if_true]
        simp
        tauto
      · by_cases h3 : canonUnit u = "ms".data
        · simp [h1, h2, h3]
        · by_cases h4 : canonUnit u = "s".data
          · simp [h1, h2, h3, h4]
          · simp [h1, h2, h3, h4]
  · intro s d h
    unfold parse_duration at h
    by_cases h1 : (spanP isNumDotChar (stripP isPySpace s.data)).1 = []
    · simp [h1] at h
    · simp only [h1, if_false] at h
      by_cases h2 : (spanP isPySpace (spanP isNumDotChar (stripP isPySpace s.data)).2).2
            = "ns".data
          ∨ (spanP isPySpace (spanP isNumDotChar (stripP isPySpace s.data)).2).2 = "µs".data
          ∨ (spanP isPySpace (spanP isNumDotChar (stripP isPySpace s.data)).2).2 = "us".data
          ∨ (spanP isPySpace (spanP isNumDotChar (stripP isPySpace s.data)).2).2 = "ms".data
          ∨ (spanP isPySpace (spanP isNumDotChar (stripP isPySpace s.data)).2).2 = "s".data
      · refine ⟨(spanP isNumDotChar (stripP isPySpace s.data)).1,
          (spanP isPySpace (spanP isNumDotChar (stripP isPySpace s.data)).2).1,
          (spanP isPySpace (spanP isNumDotChar (stripP isPySpace s.data)).2).2,
          ?_, h1, spanP_all _ _, spanP_all _ _, h2⟩
        conv_rhs => rw [List.append_assoc, spanP_append, spanP_append]
      · simp [h2] at h

/-- Witness for C8 at a concrete malformed-then-wellformed pair: the
soundness decomposition applied to the parsed token `"1.5ms"`. -/
theorem claim_C8_witness :
    (parse_duration "1.5ms").isSome = true ∧
    (∃ num ws unit : List Char,
      stripP isPySpace "1.5ms".data = num ++ ws ++ unit
      ∧ num ≠ [] ∧ num.all isNumDotChar = true
      ∧ ws.all isPySpace = true
      ∧ (unit = "ns".data ∨ unit = "µs".data ∨ unit = "us".data ∨ unit = "ms".data
          ∨ unit = "s".data)) := by
  refine ⟨by decide, ?_⟩
  cases hp : parse_duration "1.5ms" with
  | none => exact absurd hp (by decide)
  | some d => exact claim_C8.2.2.1 "1.5ms" d hp

/-- C5 (counterexample): the claim says any expression with an alternative
outside the restricted charset, or any non-matching expression, comes back
unchanged — but the code whitespace-strips each alternative before the
charset check (so `"grp/(a| b)"` expands), and the fallback returns the
whitespace-stripped expression, not the original. -/
theorem claim_C5_counterexample :
    (expand_filter_to_exact_benches "grp/(a| b)" = ["grp/a", "grp/b"]
      ∧ ["grp/a", "grp/b"] ≠ ["grp/(a| b)"])
    ∧ (expand_filter_to_exact_benches "  grp/a!  " = ["grp/a!"]
      ∧ ["grp/a!"] ≠ ["  grp/a!  "]) :=
  ⟨⟨by decide, by decide⟩, ⟨by decide, by decide⟩⟩

/-- C5 (amended): after whitespace-stripping the expression, an exact
`prefix/(alt|...)` shape whose whitespace-stripped, non-empty alternatives
all lie in the restricted charset expands to the prefixed names; any other
expression — non-matching shape, an alternative with a forbidden character
after stripping, or no non-empty alternative — yields the whitespace-stripped
expression as a one-element list. -/
theorem claim_C5 :
    expand_filter_to_exact_benches "grp/(a|b|c)" = ["grp/a", "grp/b", "grp/c"]
    ∧ expand_filter_to_exact_benches "grp/a" = ["grp/a"]
    ∧ expand_filter_to_exact_benches "grp/(a|b!)" = ["grp/(a|b!)"]
    ∧ expand_filter_to_exact_benches "grp/(|)" = ["grp/(|)"]
    ∧ (∀ s : String, filterShape (stripP isPySpace s.data) = none →
        expand_filter_to_exact_benches s = [String.mk (stripP isPySpace s.data)])
    ∧ (∀ (s : String) (pfx body : List Char),
        filterShape (stripP isPySpace s.data) = some (pfx, body) →
        (((splitOnChar '|' body).map (stripP isPySpace)).filter (fun a => a ≠ [])).all
            (fun a => !a.isEmpty && a.all isNameChar) = false →
        expand_filter_to_exact_benches s = [String.mk (stripP isPySpace s.data)])
    ∧ (∀ (s : String) (pfx body a0 : List Char) (alts : List (List Char)),
        filterShape (stripP isPySpace s.data) = some (pfx, body) →
        ((splitOnChar '|' body).map (stripP isPySpace)).filter (fun a => a ≠ [])
          = a0 :: alts →
        (a0 :: alts).all (fun a => !a.isEmpty && a.all isNameChar) = true →
        expand_filter_to_exact_benches s
          = (a0 :: alts).map (fun a => String.mk (pfx ++ '/' :: a))) := by
  refine ⟨by decide, by decide, by decide, by decide, ?_, ?_, ?_⟩
  · intro s h
    simp only [expand_filter_to_exact_benches]
    rw [h]
  · intro s pfx body h hall
    simp only [expand_filter_to_exact_benches]
    rw [h]
    simp only [hall]
    rfl
  · intro s pfx body a0 alts h halts hall
    simp only [expand_filter_to_exact_benches]
    rw [h]
    simp only [halts, hall, if_true]

/-- Witness for C5: the fallback branch applied to a concrete non-matching
expression, and the expanding branch applied to a concrete alternation. -/
theorem claim_C5_witness :
    (filterShape (stripP isPySpace "nope".data) = none ∧
      expand_filter_to_exact_benches "nope" = [String.mk (stripP isPySpace "nope".data)]) ∧
    expand_filter_to_exact_benches "grp/(x|y)"
      = (["x".data, "y".data]).map (fun a => String.mk ("grp".data ++ '/' :: a)) :=
  ⟨⟨by decide, claim_C5.2.2.2.2.1 "nope" (by decide)⟩,
   claim_C5.2.2.2.2.2.2 "grp/(x|y)" "grp".data "x|y".data "x".data ["y".data]
     (by decide) (by decide) (by decide)⟩

/-- Tail of the stage timing patterns: literal `time:`, mandatory whitespace,
a bracketed nonempty body free of closing brackets, then only whitespace. -/
def stageTimeTail (cs : List Char) : Option String :=
  if cs.take 5 = "time:".data then
    let w := spanP isPySpace (cs.drop 5)
    if w.1 = [] then none
    else if w.2.head? = some '[' then
      let b := spanP (fun c => !decide (c = ']')) w.2.tail
      if b.1 = [] then none
      else if b.2.head? = some ']' then
        if b.2.tail.all isPySpace then some (String.mk b.1) else none
      else none
    else none
  else none

/-- `TIME_ONLY_RE` of `stage_spotcheck.py`: optional leading whitespace then
the timing tail. -/
def stageTimeOnly (cs : List Char) : Option String :=
  stageTimeTail (spanP isPySpace cs).2

/-- `TIME_LINE_RE` of `stage_spotcheck.py`: a bench name (letters, digits,
underscore, hyphen, slash), mandatory whitespace, then the timing tail. -/
def stageTimeLine (cs : List Char) : Option (String × String) :=
  let g := spanP isBenchChar cs
  if g.1 = [] then none
  else
    let w := spanP isPySpace g.2
    if w.1 = [] then none
    else
      match stageTimeTail w.2 with
      | some body => some (String.mk g.1, body)
      | none => none

/-- Fuel-driven Python `str.split()` with no separator: whitespace runs
delimit the fields and produce no empty fields. -/
def splitWsGo : Nat → List Char → List (List Char)
  | 0, _ => []
  | f + 1, cs =>
    let cs1 := (spanP isPySpace cs).2
    match cs1 with
    | [] => []
    | _ :: _ =>
      let w := spanP (fun c => !isPySpace c) cs1
      w.1 :: splitWsGo f w.2

/-- Python `str.split()` with no separator. -/
def splitWs (l : List Char) : List (List Char) := splitWsGo l.length l

/-- Errors of `extract_mid_time`: an unrecognized bracket layout, a duration
token `parse_duration` rejects, or no matching timing line at all. -/
inductive PErr where
  | badFormat
  | badDuration
  | notFound
deriving DecidableEq

/-- `parse_body` inside `extract_mid_time`: six fields pair up into three
value-unit tokens, three fields are three compact tokens, anything else is an
unrecognized layout; the mid token (index 1) is parsed as a duration. -/
def parse_body (body : String) : Except PErr PyDuration :=
  let parts := splitWs (stripP isPySpace body.data)
  if parts.length = 6 then
    match parse_duration (String.mk ((parts.get? 2).getD [] ++ ' ' :: (parts.get? 3).getD [])) with
    | some d => Except.ok d
    | none => Except.error PErr.badDuration
  else if parts.length = 3 then
    match parse_duration (String.mk ((parts.get? 1).getD [])) with
    | some d => Except.ok d
    | none => Except.error PErr.badDuration
  else Except.error PErr.badFormat

/-- Format-A scan of `extract_mid_time`: the first stripped line matching the
inline pattern with the expected bench name yields its body. -/
def findFormatA : List (List Char) → String → Option String
  | [], _ => none
  | l :: rest, bench =>
    match stageTimeLine (stripP isPySpace l) with
    | some (b, body) => if b = bench then some body else findFormatA rest bench
    | none => findFormatA rest bench

/-- First standalone timing line of a window. -/
def windowFind : List (List Char) → Option String
  | [] => none
  | l :: rest =>
    match stageTimeOnly l with
    | some b => some b
    | none => windowFind rest

/-- Format-B scan of `extract_mid_time`: after each stripped line equal to
the bench name, search the next five lines for a standalone timing line. -/
def findFormatB : List (List Char) → String → Option String
  | [], _ => none
  | l :: rest, bench =>
    if String.mk (stripP isPySpace l) = bench then
      match windowFind (rest.take 5) with
      | some b => some b
      | none => findFormatB rest bench
    else findFormatB rest bench

/-- `extract_mid_time` on pre-split lines. -/
def extractFromLines (lines : List (List Char)) (bench : String) : Except PErr PyDuration :=
  match findFormatA lines bench with
  | some body => parse_body body
  | none =>
    match findFormatB lines bench with
    | some body => parse_body body
    | none => Except.error PErr.notFound

/-- `extract_mid_time` from `stage_spotcheck.py`. -/
def extract_mid_time (output : String) (expected_bench : String) : Except PErr PyDuration :=
  let lines := (splitLinesL output.data).map (fun l => rstripP (fun c => decide (c = '\n')) l)
  extractFromLines lines expected_bench

theorem findFormatA_none {lines : List (List Char)} {bench : String}
    (h : ∀ l ∈ lines, ∀ p : String × String,
      stageTimeLine (stripP isPySpace l) = some p → p.1 ≠ bench) :
    findFormatA lines bench = none := by
  induction lines with
  | nil => rfl
  | cons l rest ih =>
    show (match stageTimeLine (stripP isPySpace l) with
      | some (b, body) => if b = bench then some body else findFormatA rest bench
      | none => findFormatA rest bench) = none
    cases hm : stageTimeLine (stripP isPySpace l) with
    | some p =>
      obtain ⟨b, body⟩ := p
      have hb : b ≠ bench := h l (List.mem_cons_self l rest) (b, body) hm
      simp only [hb, if_false]
      exact ih (fun x hx => h x (List.mem_cons_of_mem l hx))
    | none => exact ih (fun x hx => h x (List.mem_cons_of_mem l hx))

theorem windowFind_none {ws : List (List Char)}
    (h : ∀ w ∈ ws, stageTimeOnly w = none) : windowFind ws = none := by
  induction ws with
  | nil => rfl
  | cons w rest ih =>
    show (match stageTimeOnly w with
      | some b => some b
      | none => windowFind rest) = none
    rw [h w (List.mem_cons_self w rest)]
    exact ih (fun x hx => h x (List.mem_cons_of_mem w hx))

theorem findFormatB_none {lines : List (List Char)} {bench : String}
    (h : ∀ (pre rest : List (List Char)) (l : List Char), lines = pre ++ l :: rest →
      String.mk (stripP isPySpace l) = bench → ∀ w ∈ rest.take 5, stageTimeOnly w = none) :
    findFormatB lines bench = none := by
  induction lines with
  | nil => rfl
  | cons l rest ih =>
    show (if String.mk (stripP isPySpace l) = bench then
        match windowFind (rest.take 5) with
        | some b => some b
        | none => findFormatB rest bench
      else findFormatB rest bench) = none
    have htail : findFormatB rest bench = none :=
      ih (fun pre r2 l2 hd hb => h (l :: pre) r2 l2 (by rw [hd]; rfl) hb)
    by_cases hb : String.mk (stripP isPySpace l) = bench
    · simp only [hb, if_true]
      rw [windowFind_none (h [] rest l rfl hb)]
      exact htail
    · simp only [hb, if_false]
      exact htail

/-- C10: the two-line layout is recognized only when the standalone timing
line occurs within the five lines immediately after a stripped line equal to
the bench name; with no inline match and no timing line in any such window
the extractor signals not-found instead of producing a default.  The two
boundary scenarios are included: a timing line five lines after the name is
found, six lines after it is not. -/
theorem claim_C10 :
    (∀ (lines : List (List Char)) (bench : String),
      (∀ l ∈ lines, ∀ p : String × String,
        stageTimeLine (stripP isPySpace l) = some p → p.1 ≠ bench) →
      (∀ (pre rest : List (List Char)) (l : List Char), lines = pre ++ l :: rest →
        String.mk (stripP isPySpace l) = bench →
        ∀ w ∈ rest.take 5, stageTimeOnly w = none) →
      extractFromLines lines bench = Except.error PErr.notFound)
    ∧ extract_mid_time "parse/foo\n\n\n\n\n    time: [1.0 ms 2.0 ms 3.0 ms]" "parse/foo"
        = Except.ok ⟨numTokenToQ "2.0".data * 1000, "2.0 ms"⟩
    ∧ extract_mid_time "parse/foo\n\n\n\n\n\n    time: [1.0 ms 2.0 ms 3.0 ms]" "parse/foo"
        = Except.error PErr.notFound := by
  refine ⟨?_, by rfl, by rfl⟩
  intro lines bench h1 h2
  unfold extractFromLines
  rw [findFormatA_none h1, findFormatB_none h2]

/-- Witness for C10 on a concrete transcript with no matching lines at all. -/
theorem claim_C10_witness :
    extractFromLines ["nothing here".data] "parse/foo" = Except.error PErr.notFound := by
  refine claim_C10.1 ["nothing here".data] "parse/foo" ?_ ?_
  · intro l hl p hp
    simp only [List.mem_singleton] at hl
    subst hl
    rw [show stageTimeLine (stripP isPySpace "nothing here".data) = none from by decide] at hp
    cases hp
  · intro pre rest l hd hb
    match pre, hd with
    | [], hd =>
      simp only [List.nil_append, List.cons.injEq] at hd
      obtain ⟨hl, hr⟩ := hd
      subst hl
      exact absurd hb (by decide)
    | p :: ps, hd =>
      simp only [List.cons_append, List.cons.injEq] at hd
      have := hd.2
      exact absurd this.symm (by simp)

open scoped Classical

/-- Python float values relevant to the ratio guards and the geometric mean:
a finite real, the two infinities, or NaN. -/
inductive PyFloat where
  | fin (x : ℝ)
  | inf
  | ninf
  | nan

/-- Python `>` on floats (every comparison with NaN is false). -/
noncomputable def pyGt : PyFloat → PyFloat → Bool
  | .nan, _ => false
  | _, .nan => false
  | .fin a, .fin b => decide (b < a)
  | .fin _, .inf => false
  | .fin _, .ninf => true
  | .inf, .fin _ => true
  | .inf, .inf => false
  | .inf, .ninf => true
  | .ninf, _ => false

/-- Python `<` on floats (every comparison with NaN is false). -/
noncomputable def pyLt : PyFloat → PyFloat → Bool
  | .nan, _ => false
  | _, .nan => false
  | .fin a, .fin b => decide (a < b)
  | .fin _, .inf => true
  | .fin _, .ninf => false
  | .inf, _ => false
  | .ninf, .fin _ => true
  | .ninf, .inf => true
  | .ninf, .ninf => false

/-- Python `math.isfinite`. -/
def isFiniteB : PyFloat → Bool
  | .fin _ => true
  | _ => false

/-- Python `v == float("inf")` (false for NaN). -/
def isInfB : PyFloat → Bool
  | .inf => true
  | _ => false

/-- The finite value (zero on the non-finite constructors, which the callers
filter out before using it). -/
def pyToReal : PyFloat → ℝ
  | .fin x => x
  | _ => 0

/-- Python float division: `none` models the raised `ZeroDivisionError` on a
zero denominator; infinities and NaN follow IEEE semantics. -/
noncomputable def pyDiv : PyFloat → PyFloat → Option PyFloat
  | a, .fin y =>
    if y = 0 then none
    else
      match a with
      | .fin x => some (.fin (x / y))
      | .inf => some (if 0 < y then .inf else .ninf)
      | .ninf => some (if 0 < y then .ninf else .inf)
      | .nan => some .nan
  | .nan, _ => some .nan
  | _, .nan => some .nan
  | .fin _, .inf => some (.fin 0)
  | .fin _, .ninf => some (.fin 0)
  | .inf, _ => some .nan
  | .ninf, _ => some .nan

/-- The comparison report's per-row ratio:
`merman_ns / mmdr_ns if mmdr_ns > 0 else float("inf")`. -/
noncomputable def ratioGuard (a b : PyFloat) : Option PyFloat :=
  if pyGt b (.fin 0) then pyDiv a b else some .inf

/-- The stage spot-check's per-row ratio:
`merman.micros / mmdr.micros if mmdr.micros > 0 else float("nan")`. -/
noncomputable def stageRatioGuard (a b : PyFloat) : Option PyFloat :=
  if pyGt b (.fin 0) then pyDiv a b else some .nan

/-- The rendering choice of `fmt_ratio` and of the stage report's ratio cell,
abstracting the numeric formatting itself. -/
inductive RatioRendering where
  | infSentinel
  | twoDec (v : PyFloat)
  | oneDec (v : PyFloat)

/-- `fmt_ratio` of `write_markdown`: non-positive or infinite ratios render
as the `inf` sentinel; small ratios get two decimals, others one. -/
noncomputable def fmt_ratio (v : PyFloat) : RatioRendering :=
  if !pyGt v (.fin 0) || isInfB v then .infSentinel
  else if pyLt v (.fin (1/10)) then .twoDec v
  else .oneDec v

/-- The stage report renders every ratio with two decimals, unconditionally. -/
def stageRender (v : PyFloat) : RatioRendering := .twoDec v

/-- `gmean` from `stage_spotcheck.py`: drop non-positive and non-finite
values, return NaN on an empty remainder, else the exponential of the mean
logarithm. -/
noncomputable def gmean (values : List PyFloat) : PyFloat :=
  let vals := values.filter (fun v => pyGt v (.fin 0) && isFiniteB v)
  if vals = [] then .nan
  else .fin (Real.exp (((vals.map pyToReal).map Real.log).sum / (vals.length : ℝ)))

theorem ratioGuard_isSome (a b : PyFloat) : (ratioGuard a b).isSome = true := by
  unfold ratioGuard
  by_cases hg : pyGt b (.fin 0) = true
  · rw [if_pos hg]
    cases b with
    | fin y =>
      have hy : (0:ℝ) < y := by simpa [pyGt] using hg
      have hy0 : y ≠ 0 := ne_of_gt hy
      cases a <;> simp [pyDiv, hy0]
    | inf => cases a <;> simp [pyDiv]
    | ninf => simp [pyGt] at hg
    | nan => simp [pyGt] at hg
  · rw [if_neg hg]
    rfl

theorem stageRatioGuard_isSome (a b : PyFloat) : (stageRatioGuard a b).isSome = true := by
  unfold stageRatioGuard
  by_cases hg : pyGt b (.fin 0) = true
  · rw [if_pos hg]
    cases b with
    | fin y =>
      have hy : (0:ℝ) < y := by simpa [pyGt] using hg
      have hy0 : y ≠ 0 := ne_of_gt hy
      cases a <;> simp [pyDiv, hy0]
    | inf => cases a <;> simp [pyDiv]
    | ninf => simp [pyGt] at hg
    | nan => simp [pyGt] at hg
  · rw [if_neg hg]
    rfl

/-- C4 (counterexample): in the stage spot-check a zero denominator is
guarded with NaN, and the report cell renders that NaN with two decimals —
not the "infinite" sentinel the claim requires of every comparison row. -/
theorem claim_C4_counterexample :
    stageRatioGuard (.fin 1) (.fin 0) = some .nan
    ∧ stageRender .nan ≠ .infSentinel
    ∧ PyFloat.nan ≠ .inf := by
  refine ⟨?_, fun h => RatioRendering.noConfusion h, fun h => PyFloat.noConfusion h⟩
  unfold stageRatioGuard
  rw [if_neg (by simp [pyGt])]

/-- C4 (amended): neither ratio computation can raise a division error: the
comparison report's guard turns a zero, NaN or negative-infinite denominator
directly into the `inf` sentinel, and a positive-infinite denominator gives a
zero ratio which `fmt_ratio` also renders as the sentinel (as it does `inf`
and NaN ratios); the stage spot-check's guard instead turns a zero
denominator into NaN, which its report renders with two decimals, not as an
"infinite" sentinel. -/
theorem claim_C4 :
    (∀ a b : PyFloat, (ratioGuard a b).isSome = true)
    ∧ (∀ a b : PyFloat, (stageRatioGuard a b).isSome = true)
    ∧ (∀ a : PyFloat, ratioGuard a (.fin 0) = some .inf)
    ∧ (∀ a : PyFloat, ratioGuard a .nan = some .inf)
    ∧ (∀ a : PyFloat, ratioGuard a .ninf = some .inf)
    ∧ (∀ x : ℝ, ratioGuard (.fin x) .inf = some (.fin 0))
    ∧ fmt_ratio (.fin 0) = .infSentinel
    ∧ fmt_ratio .inf = .infSentinel
    ∧ fmt_ratio .nan = .infSentinel
    ∧ (∀ a : PyFloat, stageRatioGuard a (.fin 0) = some .nan)
    ∧ stageRender .nan = .twoDec .nan := by
  refine ⟨ratioGuard_isSome, stageRatioGuard_isSome, ?_, ?_, ?_, ?_, ?_, ?_, ?_, ?_, rfl⟩
  · intro a
    unfold ratioGuard
    rw [if_neg (by simp [pyGt])]
  · intro a
    unfold ratioGuard
    rw [if_neg (by simp [pyGt])]
  · intro a
    unfold ratioGuard
    rw [if_neg (by simp [pyGt])]
  · intro x
    unfold ratioGuard
    rw [if_pos (by simp [pyGt])]
    rfl
  · unfold fmt_ratio
    rw [if_pos (by simp [pyGt])]
  · unfold fmt_ratio
    rw [if_pos (by simp [pyGt, isInfB])]
  · unfold fmt_ratio
    rw [if_pos (by simp [pyGt])]
  · intro a
    unfold stageRatioGuard
    rw [if_neg (by simp [pyGt])]

/-- C6: the geometric mean of the ratios 2 and one-half is exactly one
(multiplicative composition), while the empty list and lists of only
non-finite values give NaN, which is neither zero nor one. -/
theorem claim_C6 :
    gmean [.fin 2, .fin (1/2)] = .fin 1
    ∧ gmean [] = .nan
    ∧ (∀ l : List PyFloat, (∀ v ∈ l, isFiniteB v = false) → gmean l = .nan)
    ∧ PyFloat.nan ≠ .fin 0 ∧ PyFloat.nan ≠ .fin 1 := by
  refine ⟨?_, by rfl, ?_, fun h => PyFloat.noConfusion h, fun h => PyFloat.noConfusion h⟩
  · unfold gmean
    have h2 : (pyGt (.fin 2) (.fin 0) && isFiniteB (.fin 2)) = true := by
      simp [pyGt, isFiniteB]
    have hh : (pyGt (.fin (1/2 : ℝ)) (.fin 0) && isFiniteB (.fin (1/2 : ℝ))) = true := by
      simp [pyGt, isFiniteB]
    have hfil : List.filter (fun v => pyGt v (.fin 0) && isFiniteB v)
        [PyFloat.fin 2, PyFloat.fin (1/2)] = [PyFloat.fin 2, PyFloat.fin (1/2)] := by
      simp only [List.filter, h2, hh]
    rw [hfil, if_neg (by simp)]
    have hlog : Real.log (1/2 : ℝ) = - Real.log 2 := by
      rw [one_div, Real.log_inv]
    simp only [List.map_cons, List.map_nil, pyToReal, List.sum_cons, List.sum_nil,
      List.length_cons, List.length_nil, hlog]
    norm_num
  · intro l h
    unfold gmean
    rw [show List.filter (fun v => pyGt v (.fin 0) && isFiniteB v) l = [] by
      rw [List.filter_eq_nil_iff]
      intro v hv
      rw [h v hv]
      simp]
    rw [if_pos rfl]

/-- Witness for C6: a list holding only an infinity and a NaN is entirely
non-finite, and its geometric mean is NaN. -/
theorem claim_C6_witness :
    (∀ v ∈ [PyFloat.inf, PyFloat.nan], isFiniteB v = false)
    ∧ gmean [PyFloat.inf, PyFloat.nan] = .nan := by
  have hall : ∀ v ∈ [PyFloat.inf, PyFloat.nan], isFiniteB v = false := by
    intro v hv
    rcases List.mem_cons.mp hv with h | hv2
    · subst h
      rfl
    · rw [List.mem_singleton] at hv2
      subst hv2
      rfl
  exact ⟨hall, claim_C6.2.2.1 [PyFloat.inf, PyFloat.nan] hall⟩

theorem lineSep_not_ansi {c : Char} (h : isLineSep c = true) :
    c ≠ '\x1b' ∧ c ≠ '[' ∧ isAnsiRun c = false ∧ isAsciiAlpha c = false := by
  simp only [isLineSep, Bool.or_eq_true, decide_eq_true_eq] at h
  refine ⟨?_, ?_, ?_, ?_⟩
  · intro he
    subst he
    exact absurd h (by decide)
  · intro he
    subst he
    exact absurd h (by decide)
  · by_contra hn
    rw [Bool.not_eq_false] at hn
    simp only [isAnsiRun, isDigitC, Bool.or_eq_true, Bool.and_eq_true,
      decide_eq_true_eq] at hn
    omega
  · by_contra hn
    rw [Bool.not_eq_false] at hn
    simp only [isAsciiAlpha, Bool.or_eq_true, Bool.and_eq_true, decide_eq_true_eq] at hn
    omega

theorem ansiRun_append_sep {t : Char} (ht : isLineSep t = true) (xs ys : List Char) :
    ansiRun (xs ++ t :: ys) = (ansiRun xs).map (fun r => r ++ t :: ys) := by
  induction xs with
  | nil =>
    simp [ansiRun, (lineSep_not_ansi ht).2.2.1, (lineSep_not_ansi ht).2.2.2]
  | cons c cs ih =>
    show (if isAnsiRun c then ansiRun (cs ++ t :: ys)
      else if isAsciiAlpha c then some (cs ++ t :: ys) else none) = _
    by_cases h1 : isAnsiRun c
    · simp [ansiRun, h1, ih]
    · by_cases h2 : isAsciiAlpha c
      · simp [ansiRun, h1, h2]
      · simp [ansiRun, h1, h2]

theorem ansiSkip_append_sep {t : Char} (ht : isLineSep t = true) (xs ys : List Char) :
    ansiSkip (xs ++ t :: ys) = (ansiSkip xs).map (fun r => r ++ t :: ys) := by
  cases xs with
  | nil =>
    have hlb : t ≠ '[' := (lineSep_not_ansi ht).2.1
    simp [ansiSkip, hlb]
  | cons c cs =>
    show (if c = '[' then ansiRun (cs ++ t :: ys) else none) = _
    by_cases h1 : c = '['
    · simp [ansiSkip, h1, ansiRun_append_sep ht]
    · simp [ansiSkip, h1]

theorem ansiRun_mem {cs r : List Char} (h : ansiRun cs = some r) : ∀ c ∈ r, c ∈ cs := by
  induction cs with
  | nil => simp [ansiRun] at h
  | cons a as ih =>
    unfold ansiRun at h
    by_cases h1 : isAnsiRun a = true
    · rw [if_pos h1] at h
      intro c hc
      exact List.mem_cons_of_mem a (ih h c hc)
    · rw [if_neg h1] at h
      by_cases h2 : isAsciiAlpha a = true
      · rw [if_pos h2] at h
        injection h with h
        subst h
        intro c hc
        exact List.mem_cons_of_mem a hc
      · rw [if_neg h2] at h
        cases h

theorem ansiSkip_mem {cs r : List Char} (h : ansiSkip cs = some r) : ∀ c ∈ r, c ∈ cs := by
  cases cs with
  | nil => simp [ansiSkip] at h
  | cons a as =>
    unfold ansiSkip at h
    by_cases h1 : a = '['
    · simp only [h1, if_true] at h
      intro c hc
      exact List.mem_cons_of_mem _ (ansiRun_mem h c hc)
    · simp [h1] at h

theorem stripAnsiL_mem : ∀ (len : Nat) (l : List Char), l.length ≤ len →
    ∀ c ∈ stripAnsiL l, c ∈ l := by
  intro len
  induction len using Nat.strong_induction_on with
  | _ len ih =>
    intro l hlen c hc
    cases l with
    | nil => simp [stripAnsiL_nil] at hc
    | cons a as =>
      have hlen2 : as.length + 1 ≤ len := by simpa using hlen
      rw [stripAnsiL_cons] at hc
      by_cases h1 : a = '\x1b'
      · rw [if_pos h1] at hc
        cases hsk : ansiSkip as with
        | some r =>
          rw [hsk] at hc
          have hr := ansiSkip_length hsk
          have := ih r.length (by omega) r (Nat.le_refl _) c hc
          exact List.mem_cons_of_mem a (ansiSkip_mem hsk c this)
        | none =>
          rw [hsk] at hc
          rcases List.mem_cons.mp hc with he | hm
          · subst he
            exact List.mem_cons_self _ _
          · exact List.mem_cons_of_mem a (ih as.length (by omega) as (Nat.le_refl _) c hm)
      · rw [if_neg h1] at hc
        rcases List.mem_cons.mp hc with he | hm
        · subst he
          exact List.mem_cons_self _ _
        · exact List.mem_cons_of_mem a (ih as.length (by omega) as (Nat.le_refl _) c hm)

theorem stripAnsiL_append_sep_aux : ∀ (len : Nat) (xs : List Char), xs.length ≤ len →
    ∀ {t : Char}, isLineSep t = true → ∀ ys : List Char,
    stripAnsiL (xs ++ t :: ys) = stripAnsiL xs ++ t :: stripAnsiL ys := by
  intro len
  induction len using Nat.strong_induction_on with
  | _ len ih =>
    intro xs hlen t ht ys
    cases xs with
    | nil =>
      rw [List.nil_append, stripAnsiL_cons, if_neg (lineSep_not_ansi ht).1, stripAnsiL_nil,
        List.nil_append]
    | cons a as =>
      have hlen2 : as.length + 1 ≤ len := by simpa using hlen
      rw [List.cons_append, stripAnsiL_cons, stripAnsiL_cons]
      by_cases h1 : a = '\x1b'
      · rw [if_pos h1, if_pos h1, ansiSkip_append_sep ht]
        cases hsk : ansiSkip as with
        | some r =>
          have hr := ansiSkip_length hsk
          simp only [Option.map_some]
          exact ih r.length (by omega) r (Nat.le_refl _) ht ys
        | none =>
          simp only [Option.map_none]
          rw [ih as.length (by omega) as (Nat.le_refl _) ht ys]
          rfl
      · rw [if_neg h1, if_neg h1, ih as.length (by omega) as (Nat.le_refl _) ht ys]
        rfl

theorem stripAnsiL_append_sep {t : Char} (ht : isLineSep t = true) (xs ys : List Char) :
    stripAnsiL (xs ++ t :: ys) = stripAnsiL xs ++ t :: stripAnsiL ys :=
  stripAnsiL_append_sep_aux xs.length xs (Nat.le_refl _) ht ys

theorem stripAnsiL_append_crlf (xs ys : List Char) :
    stripAnsiL (xs ++ '\r' :: '\n' :: ys) = stripAnsiL xs ++ '\r' :: '\n' :: stripAnsiL ys := by
  rw [stripAnsiL_append_sep (by decide) xs ('\n' :: ys), stripAnsiL_cons]
  rfl

theorem breakLine_decomp (cs : List Char) :
    (breakLine cs).1 ++ (breakLine cs).2.1 ++ (breakLine cs).2.2 = cs := by
  induction cs with
  | nil => rfl
  | cons c cs ih =>
    by_cases h1 : isLineSep c
    · by_cases h2 : c = '\r' ∧ cs.head? = some '\n'
      · obtain ⟨h2a, h2b⟩ := h2
        cases cs with
        | nil => simp at h2b
        | cons c2 cs2 =>
          have hc2 : c2 = '\n' := by simpa using h2b
          subst hc2
          subst h2a
          rw [breakLine_crlf]
          rfl
      · rw [breakLine_sep cs h1 h2]
        rfl
    · rw [breakLine_nonsep cs h1]
      simpa using ih

theorem breakLine_line_nosep (cs : List Char) :
    ∀ c ∈ (breakLine cs).1, isLineSep c = false := by
  induction cs with
  | nil => simp [breakLine]
  | cons c cs ih =>
    by_cases h1 : isLineSep c
    · by_cases h2 : c = '\r' ∧ cs.head? = some '\n'
      · obtain ⟨h2a, h2b⟩ := h2
        cases cs with
        | nil => simp at h2b
        | cons c2 cs2 =>
          have hc2 : c2 = '\n' := by simpa using h2b
          subst hc2
          subst h2a
          rw [breakLine_crlf]
          simp
      · rw [breakLine_sep cs h1 h2]
        simp
    · rw [breakLine_nonsep cs h1]
      intro a ha
      rcases List.mem_cons.mp ha with he | hm
      · subst he
        simpa using h1
      · exact ih a hm

theorem breakLine_term_cases (cs : List Char) :
    ((breakLine cs).2.1 = [] ∧ (breakLine cs).2.2 = [])
    ∨ (∃ t, (breakLine cs).2.1 = [t] ∧ isLineSep t = true
        ∧ ¬(t = '\r' ∧ (breakLine cs).2.2.head? = some '\n'))
    ∨ (breakLine cs).2.1 = ['\r', '\n'] := by
  induction cs with
  | nil => left; exact ⟨rfl, rfl⟩
  | cons c cs ih =>
    by_cases h1 : isLineSep c
    · by_cases h2 : c = '\r' ∧ cs.head? = some '\n'
      · obtain ⟨h2a, h2b⟩ := h2
        cases cs with
        | nil => simp at h2b
        | cons c2 cs2 =>
          have hc2 : c2 = '\n' := by simpa using h2b
          subst hc2
          subst h2a
          rw [breakLine_crlf]
          right; right; rfl
      · rw [breakLine_sep cs h1 h2]
        right; left
        exact ⟨c, rfl, h1, h2⟩
    · rw [breakLine_nonsep cs h1]
      exact ih

theorem splitLinesL_ne_nil {cs : List Char} (h : cs ≠ []) :
    splitLinesL cs =
      (breakLine cs).1 ::
        (if (breakLine cs).2.1 = [] then []
         else splitLinesL (breakLine cs).2.2) := by
  cases cs with
  | nil => exact absurd rfl h
  | cons c cs => exact splitLinesL_cons c cs

theorem stepLine_nil (pfx : String) (s : ParseState) : stepLine pfx s [] = s := by
  obtain ⟨times, cur⟩ := s
  cases cur <;> rfl

theorem rstripP_noop {p : Char → Bool} {l : List Char} (h : ∀ c ∈ l, p c = false) :
    rstripP p l = l := by
  unfold rstripP
  cases hr : l.reverse with
  | nil =>
    have : l = [] := by simpa using congrArg List.reverse hr
    subst this
    rfl
  | cons a as =>
    have ha : a ∈ l := by
      have : a ∈ l.reverse := by rw [hr]; exact List.mem_cons_self _ _
      simpa using this
    rw [List.dropWhile_cons_of_neg (by rw [h a ha]; simp)]
    rw [← hr, List.reverse_reverse]

theorem procLine_nosep {l : List Char} (h : ∀ c ∈ l, isLineSep c = false) :
    procLine l = stripAnsiL l := by
  unfold procLine
  rw [rstripP_noop]
  intro c hc
  have hcs := h c hc
  simp only [Bool.or_eq_false_iff, decide_eq_false_iff_not]
  constructor
  · intro he
    subst he
    exact absurd hcs (by decide)
  · intro he
    subst he
    exact absurd hcs (by decide)

theorem breakLine_nosep_all {l : List Char} (hl : ∀ c ∈ l, isLineSep c = false) :
    breakLine l = (l, [], []) := by
  induction l with
  | nil => rfl
  | cons c cs ih =>
    have hc : isLineSep c = false := hl c (List.mem_cons_self _ _)
    rw [breakLine_nonsep cs (by simp [hc]),
      ih (fun a ha => hl a (List.mem_cons_of_mem c ha))]

theorem breakLine_append_sep {l : List Char} (hl : ∀ c ∈ l, isLineSep c = false)
    {t : Char} (ht : isLineSep t = true) (r : List Char)
    (hnc : ¬(t = '\r' ∧ r.head? = some '\n')) :
    breakLine (l ++ t :: r) = (l, [t], r) := by
  induction l with
  | nil => exact breakLine_sep r ht hnc
  | cons c cs ih =>
    have hc : isLineSep c = false := hl c (List.mem_cons_self _ _)
    rw [List.cons_append, breakLine_nonsep _ (by simp [hc]),
      ih (fun a ha => hl a (List.mem_cons_of_mem c ha))]

theorem breakLine_append_crlf {l : List Char} (hl : ∀ c ∈ l, isLineSep c = false)
    (r : List Char) :
    breakLine (l ++ '\r' :: '\n' :: r) = (l, ['\r', '\n'], r) := by
  induction l with
  | nil => exact breakLine_crlf r
  | cons c cs ih =>
    have hc : isLineSep c = false := hl c (List.mem_cons_self _ _)
    rw [List.cons_append, breakLine_nonsep _ (by simp [hc]),
      ih (fun a ha => hl a (List.mem_cons_of_mem c ha))]

theorem nosep_strip {l : List Char} (h : ∀ c ∈ l, isLineSep c = false) :
    ∀ c ∈ stripAnsiL l, isLineSep c = false :=
  fun c hc => h c (stripAnsiL_mem l.length l (Nat.le_refl _) c hc)

theorem stepRaw_nosep {l : List Char} (h : ∀ c ∈ l, isLineSep c = false)
    (pfx : String) (s : ParseState) : stepRaw pfx s l = stepLine pfx s (stripAnsiL l) := by
  unfold stepRaw
  rw [procLine_nosep h]

set_option maxHeartbeats 1000000 in
theorem parse_strip_aux : ∀ (len : Nat) (t : List Char), t.length ≤ len →
    (∀ l ∈ splitLinesL t, stripAnsiL (stripAnsiL l) = stripAnsiL l) →
    ∀ (pfx : String) (s : ParseState),
      (splitLinesL (stripAnsiL t)).foldl (stepRaw pfx) s
        = (splitLinesL t).foldl (stepRaw pfx) s := by
  intro len
  induction len using Nat.strong_induction_on with
  | _ len ih =>
    intro t hlen hIdem pfx s
    rcases t with _ | ⟨c, cs⟩
    · rfl
    have hlen1 : cs.length + 1 ≤ len := by simpa using hlen
    have hdec := breakLine_decomp (c :: cs)
    have hnosepl := breakLine_line_nosep (c :: cs)
    have hlsub := breakLine_length (c :: cs)
    have hsplit := splitLinesL_ne_nil (show (c :: cs : List Char) ≠ [] by simp)
    obtain ⟨htm, hr⟩ | ⟨t0, htm, hsep0, hnc⟩ | htm := breakLine_term_cases (c :: cs)
    -- Case 1: no terminator, the whole input is a single line.
    · have hlt : (breakLine (c :: cs)).1 = c :: cs := by
        rw [htm, hr] at hdec
        simpa using hdec
      rw [hsplit, htm, if_pos rfl, hlt]
      have hnosept : ∀ x ∈ (c :: cs : List Char), isLineSep x = false := by
        rw [← hlt]
        exact hnosepl
      have hmem : (c :: cs : List Char) ∈ splitLinesL (c :: cs) := by
        rw [hsplit, htm, if_pos rfl, hlt]
        exact List.mem_singleton.mpr rfl
      have hid := hIdem (c :: cs) hmem
      show (splitLinesL (stripAnsiL (c :: cs))).foldl (stepRaw pfx) s
        = stepRaw pfx s (c :: cs)
      rw [stepRaw_nosep hnosept]
      cases hst : stripAnsiL (c :: cs) with
      | nil =>
        rw [splitLinesL_nil, stepLine_nil]
        rfl
      | cons a as =>
        have hnos2 : ∀ x ∈ (a :: as : List Char), isLineSep x = false := by
          rw [← hst]
          exact nosep_strip hnosept
        rw [splitLinesL_ne_nil (show (a :: as : List Char) ≠ [] by simp),
          breakLine_nosep_all hnos2]
        simp only [if_pos rfl]
        show stepRaw pfx s (a :: as) = _
        rw [stepRaw_nosep hnos2, ← hst, hid, hst]
    -- Case 2: a one-character terminator.
    · have ht : (c :: cs : List Char) = (breakLine (c :: cs)).1 ++ t0 :: (breakLine (c :: cs)).2.2 := by
        rw [htm] at hdec
        conv_lhs => rw [← hdec]
        simp
      have hmeml : (breakLine (c :: cs)).1 ∈ splitLinesL (c :: cs) := by
        rw [hsplit]
        exact List.mem_cons_self _ _
      have hid := hIdem _ hmeml
      have hsplitr : splitLinesL (c :: cs)
          = (breakLine (c :: cs)).1 :: splitLinesL (breakLine (c :: cs)).2.2 := by
        rw [hsplit, htm]
        simp
      have hrlen : (breakLine (c :: cs)).2.2.length < len := by
        rw [htm] at hlsub
        simp only [List.length_cons, List.length_singleton] at hlsub
        omega
      have hIdemr : ∀ l ∈ splitLinesL (breakLine (c :: cs)).2.2,
          stripAnsiL (stripAnsiL l) = stripAnsiL l := by
        intro l hl
        refine hIdem l ?_
        rw [hsplitr]
        exact List.mem_cons_of_mem _ hl
      have hstript : stripAnsiL (c :: cs)
          = stripAnsiL (breakLine (c :: cs)).1 ++ t0 :: stripAnsiL (breakLine (c :: cs)).2.2 := by
        conv_lhs => rw [ht]
        exact stripAnsiL_append_sep hsep0 _ _
      by_cases hnc2 : t0 = '\r' ∧ (stripAnsiL (breakLine (c :: cs)).2.2).head? = some '\n'
      -- Case 2b: the deleted prefix of the rest re-joins CR with LF.
      · obtain ⟨ht0, hhead⟩ := hnc2
        subst ht0
        -- analyse the rest
        have hrne : (breakLine (c :: cs)).2.2 ≠ [] := by
          intro hre
          rw [hre] at hhead
          simp [stripAnsiL_nil] at hhead
        have hdecr := breakLine_decomp (breakLine (c :: cs)).2.2
        have hnosepD := breakLine_line_nosep (breakLine (c :: cs)).2.2
        have hlsubr := breakLine_length (breakLine (c :: cs)).2.2
        have hsplitr2 := splitLinesL_ne_nil hrne
        obtain ⟨htm2, hr2⟩ | ⟨t2, htm2, hsep2, hnc2⟩ | htm2 :=
          breakLine_term_cases (breakLine (c :: cs)).2.2
        · -- no terminator in the rest: the rest is one separator-free line,
          -- so its stripped form cannot start with a separator
          exfalso
          have hDr : (breakLine (breakLine (c :: cs)).2.2).1 = (breakLine (c :: cs)).2.2 := by
            rw [htm2, hr2] at hdecr
            simpa using hdecr
          have hnosepr : ∀ x ∈ (breakLine (c :: cs)).2.2, isLineSep x = false := by
            rw [← hDr]
            exact hnosepD
          cases hsr : stripAnsiL (breakLine (c :: cs)).2.2 with
          | nil => rw [hsr] at hhead; simp at hhead
          | cons a as =>
            rw [hsr] at hhead
            simp only [List.head?_cons, Option.some.injEq] at hhead
            subst hhead
            have := nosep_strip hnosepr '\n' (by rw [hsr]; exact List.mem_cons_self _ _)
            exact absurd this (by decide)
        · -- one-character terminator in the rest
          have htr : (breakLine (c :: cs)).2.2
              = (breakLine (breakLine (c :: cs)).2.2).1
                ++ t2 :: (breakLine (breakLine (c :: cs)).2.2).2.2 := by
            rw [htm2] at hdecr
            conv_lhs => rw [← hdecr]
            simp
          have hstripr : stripAnsiL (breakLine (c :: cs)).2.2
              = stripAnsiL (breakLine (breakLine (c :: cs)).2.2).1
                ++ t2 :: stripAnsiL (breakLine (breakLine (c :: cs)).2.2).2.2 := by
            conv_lhs => rw [htr]
            exact stripAnsiL_append_sep hsep2 _ _
          have hD : stripAnsiL (breakLine (breakLine (c :: cs)).2.2).1 = [] ∧ t2 = '\n' := by
            rw [hstripr] at hhead
            cases hsD : stripAnsiL (breakLine (breakLine (c :: cs)).2.2).1 with
            | nil =>
              rw [hsD] at hhead
              simp only [List.nil_append, List.head?_cons, Option.some.injEq] at hhead
              exact ⟨rfl, hhead⟩
            | cons a as =>
              exfalso
              rw [hsD] at hhead
              simp only [List.cons_append, List.head?_cons, Option.some.injEq] at hhead
              subst hhead
              have hmema : '\n' ∈ stripAnsiL (breakLine (breakLine (c :: cs)).2.2).1 := by
                rw [hsD]
                exact List.mem_cons_self _ _
              have := nosep_strip hnosepD _ hmema
              exact absurd this (by decide)
          obtain ⟨hDnil, ht2⟩ := hD
          subst ht2
          -- assembled stripped text
          have hstript2 : stripAnsiL (c :: cs)
              = stripAnsiL (breakLine (c :: cs)).1
                ++ '\r' :: '\n' :: stripAnsiL (breakLine (breakLine (c :: cs)).2.2).2.2 := by
            rw [hstript, hstripr, hDnil]
            rfl
          have hnoseps : ∀ x ∈ stripAnsiL (breakLine (c :: cs)).1, isLineSep x = false :=
            nosep_strip hnosepl
          have hbreaks : breakLine (stripAnsiL (c :: cs))
              = (stripAnsiL (breakLine (c :: cs)).1, ['\r', '\n'],
                stripAnsiL (breakLine (breakLine (c :: cs)).2.2).2.2) := by
            rw [hstript2]
            exact breakLine_append_crlf hnoseps _
          have hsne : stripAnsiL (c :: cs) ≠ [] := by
            rw [hstript2]
            simp
          rw [splitLinesL_ne_nil hsne, hbreaks]
          simp only [if_neg (by simp : ¬(['\r', '\n'] : List Char) = [])]
          -- right-hand side structure
          have hsplitr3 : splitLinesL (breakLine (c :: cs)).2.2
              = (breakLine (breakLine (c :: cs)).2.2).1
                :: splitLinesL (breakLine (breakLine (c :: cs)).2.2).2.2 := by
            rw [hsplitr2, htm2]
            simp
          rw [hsplitr, hsplitr3]
          simp only [List.foldl_cons]
          have hs1 : stepRaw pfx s (stripAnsiL (breakLine (c :: cs)).1)
              = stepRaw pfx s (breakLine (c :: cs)).1 := by
            rw [stepRaw_nosep hnoseps, stepRaw_nosep hnosepl, hid]
          have hs2 : ∀ s2 : ParseState,
              stepRaw pfx s2 (breakLine (breakLine (c :: cs)).2.2).1 = s2 := by
            intro s2
            rw [stepRaw_nosep hnosepD, hDnil, stepLine_nil]
          rw [hs1, hs2]
          -- inner rest is shorter
          have hr2len : (breakLine (breakLine (c :: cs)).2.2).2.2.length < len := by
            rw [htm2] at hlsubr
            simp only [List.length_singleton] at hlsubr
            omega
          have hIdemr2 : ∀ l ∈ splitLinesL (breakLine (breakLine (c :: cs)).2.2).2.2,
              stripAnsiL (stripAnsiL l) = stripAnsiL l := by
            intro l hl
            refine hIdemr l ?_
            rw [hsplitr3]
            exact List.mem_cons_of_mem _ hl
          exact ih _ hr2len _ (Nat.le_refl _) hIdemr2 pfx _
        · -- CRLF terminator in the rest: its stripped form starts with CR, not LF
          exfalso
          have htr : (breakLine (c :: cs)).2.2
              = (breakLine (breakLine (c :: cs)).2.2).1
                ++ '\r' :: '\n' :: (breakLine (breakLine (c :: cs)).2.2).2.2 := by
            rw [htm2] at hdecr
            conv_lhs => rw [← hdecr]
            simp
          have hstripr : stripAnsiL (breakLine (c :: cs)).2.2
              = stripAnsiL (breakLine (breakLine (c :: cs)).2.2).1
                ++ '\r' :: '\n' :: stripAnsiL (breakLine (breakLine (c :: cs)).2.2).2.2 := by
            conv_lhs => rw [htr]
            exact stripAnsiL_append_crlf _ _
          rw [hstripr] at hhead
          cases hsD : stripAnsiL (breakLine (breakLine (c :: cs)).2.2).1 with
          | nil =>
            rw [hsD] at hhead
            simp at hhead
          | cons a as =>
            rw [hsD] at hhead
            simp only [List.cons_append, List.head?_cons, Option.some.injEq] at hhead
            subst hhead
            have hmema : '\n' ∈ stripAnsiL (breakLine (breakLine (c :: cs)).2.2).1 := by
              rw [hsD]
              exact List.mem_cons_self _ _
            have := nosep_strip hnosepD _ hmema
            exact absurd this (by decide)
      -- Case 2a: the terminator survives as the boundary of the stripped text.
      · have hnoseps : ∀ x ∈ stripAnsiL (breakLine (c :: cs)).1, isLineSep x = false :=
          nosep_strip hnosepl
        have hbreaks : breakLine (stripAnsiL (c :: cs))
            = (stripAnsiL (breakLine (c :: cs)).1, [t0],
              stripAnsiL (breakLine (c :: cs)).2.2) := by
          rw [hstript]
          exact breakLine_append_sep hnoseps hsep0 _ hnc2
        have hsne : stripAnsiL (c :: cs) ≠ [] := by
          rw [hstript]
          simp
        rw [splitLinesL_ne_nil hsne, hbreaks]
        simp only [if_neg (by simp : ¬([t0] : List Char) = [])]
        rw [hsplitr]
        simp only [List.foldl_cons]
        have hs1 : stepRaw pfx s (stripAnsiL (breakLine (c :: cs)).1)
            = stepRaw pfx s (breakLine (c :: cs)).1 := by
          rw [stepRaw_nosep hnoseps, stepRaw_nosep hnosepl, hid]
        rw [hs1]
        exact ih _ hrlen _ (Nat.le_refl _) hIdemr pfx _
    -- Case 3: a CRLF terminator.
    · have ht : (c :: cs : List Char)
          = (breakLine (c :: cs)).1 ++ '\r' :: '\n' :: (breakLine (c :: cs)).2.2 := by
        rw [htm] at hdec
        conv_lhs => rw [← hdec]
        simp
      have hmeml : (breakLine (c :: cs)).1 ∈ splitLinesL (c :: cs) := by
        rw [hsplit]
        exact List.mem_cons_self _ _
      have hid := hIdem _ hmeml
      have hsplitr : splitLinesL (c :: cs)
          = (breakLine (c :: cs)).1 :: splitLinesL (breakLine (c :: cs)).2.2 := by
        rw [hsplit, htm]
        simp
      have hrlen : (breakLine (c :: cs)).2.2.length < len := by
        rw [htm] at hlsub
        simp only [List.length_cons, List.length_singleton, List.length_nil] at hlsub
        omega
      have hIdemr : ∀ l ∈ splitLinesL (breakLine (c :: cs)).2.2,
          stripAnsiL (stripAnsiL l) = stripAnsiL l := by
        intro l hl
        refine hIdem l ?_
        rw [hsplitr]
        exact List.mem_cons_of_mem _ hl
      have hstript : stripAnsiL (c :: cs)
          = stripAnsiL (breakLine (c :: cs)).1
            ++ '\r' :: '\n' :: stripAnsiL (breakLine (c :: cs)).2.2 := by
        conv_lhs => rw [ht]
        exact stripAnsiL_append_crlf _ _
      have hnoseps : ∀ x ∈ stripAnsiL (breakLine (c :: cs)).1, isLineSep x = false :=
        nosep_strip hnosepl
      have hbreaks : breakLine (stripAnsiL (c :: cs))
          = (stripAnsiL (breakLine (c :: cs)).1, ['\r', '\n'],
            stripAnsiL (breakLine (c :: cs)).2.2) := by
        rw [hstript]
        exact breakLine_append_crlf hnoseps _
      have hsne : stripAnsiL (c :: cs) ≠ [] := by
        rw [hstript]
        simp
      rw [splitLinesL_ne_nil hsne, hbreaks]
      simp only [if_neg (by simp : ¬(['\r', '\n'] : List Char) = [])]
      rw [hsplitr]
      simp only [List.foldl_cons]
      have hs1 : stepRaw pfx s (stripAnsiL (breakLine (c :: cs)).1)
          = stepRaw pfx s (breakLine (c :: cs)).1 := by
        rw [stepRaw_nosep hnoseps, stepRaw_nosep hnosepl, hid]
      rw [hs1]
      exact ih _ hrlen _ (Nat.le_refl _) hIdemr pfx _

/-- C9 (counterexample): `re.sub` deletion of one escape sequence can splice
the surrounding characters into a new escape sequence, so `strip_ansi` is not
idempotent; on such input the parser sees a benchmark name line only after
the outer strip, and the two parses differ. -/
theorem claim_C9_counterexample :
    parse_criterion_times
        (strip_ansi "\x1b\x1b[1m[2mend_to_end/foo\n    time: [1.0 ms 1.2 ms 1.5 ms]")
        "end_to_end"
      = [("foo", ⟨numTokenToQ "1.2".data, "ms"⟩)]
    ∧ parse_criterion_times "\x1b\x1b[1m[2mend_to_end/foo\n    time: [1.0 ms 1.2 ms 1.5 ms]"
        "end_to_end" = []
    ∧ ([("foo", (⟨numTokenToQ "1.2".data, "ms"⟩ : TimeEstimate))] : List (String × TimeEstimate))
        ≠ [] := by
  refine ⟨by rfl, by rfl, by simp⟩

/-- C9 (amended): parsing the ANSI-stripped text agrees with parsing the raw
text whenever stripping is idempotent on every line of the input — which is
every realistic colorized transcript; the equality fails only on inputs whose
escape-sequence deletions reassemble into new escape sequences. -/
theorem claim_C9 : ∀ (text pfx : String),
    (∀ l ∈ splitLinesL text.data, stripAnsiL (stripAnsiL l) = stripAnsiL l) →
    parse_criterion_times (strip_ansi text) pfx = parse_criterion_times text pfx := by
  intro text pfx h
  unfold parse_criterion_times
  show ((splitLinesL (stripAnsiL text.data)).foldl (stepRaw pfx) ([], none)).1 = _
  rw [parse_strip_aux text.data.length text.data (Nat.le_refl _) h pfx ([], none)]

/-- Witness for C9 on a concretely colorized transcript whose per-line
stripping is idempotent: both parses agree. -/
theorem claim_C9_witness :
    (∀ l ∈ splitLinesL "\x1b[32mend_to_end/foo\x1b[0m\n    time: [1.0 ms 1.2 ms 1.5 ms]".data,
      stripAnsiL (stripAnsiL l) = stripAnsiL l)
    ∧ parse_criterion_times
        (strip_ansi "\x1b[32mend_to_end/foo\x1b[0m\n    time: [1.0 ms 1.2 ms 1.5 ms]")
        "end_to_end"
      = parse_criterion_times "\x1b[32mend_to_end/foo\x1b[0m\n    time: [1.0 ms 1.2 ms 1.5 ms]"
        "end_to_end" :=
  ⟨by decide,
   claim_C9 "\x1b[32mend_to_end/foo\x1b[0m\n    time: [1.0 ms 1.2 ms 1.5 ms]" "end_to_end"
     (by decide)⟩
